import Mathlib

/-
Shallow embedding of the orchestration engine in elara/factory.py.

Modelling conventions, stated once:
* A Python value that is either None or a string (a tool option) is
  modelled as Option String, abbreviated PyOpt.  String interpolation of
  None yields the literal text "None", captured by pyStr.
* A Python dict is modelled as an association list whose keys are unique
  (Python dicts cannot hold duplicate keys); insertion order is the list
  order, and d.get(k) is List.lookup.  A requirement set maps a
  capability name to None (option indifferent) or to a list of options.
* A Python set has no observable iteration order, so the embedding
  produces a deduplicated list; every claim about such lists is stated up
  to membership or permutation, never up to a particular order.
* A value that is None-or-dict (Tool.get_requirements may return None) is
  Option ReqSet.  Python truthiness of such a value is: some d with d
  nonempty.
* Raised exceptions are modelled with Except / Option Err return values.
-/

namespace Elara

/-- Python option value: None or a string. -/
abbrev PyOpt := Option String

/-- Rendering of a Python value inside an f-string: None prints as "None". -/
def pyStr : PyOpt → String
  | none => "None"
  | some s => s

/-- A requirements dict: capability name to None or a list of option values.
Mirrors the dicts produced by Tool.get_requirements and combine_reqs. -/
abbrev ReqSet := List (String × Option (List PyOpt))

/-- Keys of an association list, in insertion order: Python list(d). -/
def keysOf {α : Type} (d : List (String × α)) : List String := d.map Prod.fst

/-- Python truthiness of a None-or-dict value: some nonempty dict. -/
def truthyReq (r : Option ReqSet) : Bool :=
  match r with
  | none => false
  | some d => !d.isEmpty

/-- Keys contributed by one element of the combine_reqs input list:
the source runs tool_set.update(list(req)) when req is truthy. -/
def contributedKeys (r : Option ReqSet) : List String :=
  if truthyReq r then
    match r with
    | some d => keysOf d
    | none => []
  else []

/-- Options contributed by one input for one capability name: the source
runs options.update(req[tool]) when req and req.get(tool) are truthy. -/
def contributedOpts (tool : String) (r : Option ReqSet) : List PyOpt :=
  if truthyReq r then
    match r with
    | some d =>
      match d.lookup tool with
      | some (some opts) => if opts.isEmpty then [] else opts
      | _ => []
    | none => []
  else []

/-- The set of capability names seen across all inputs (tool_set in the
source); a deduplicated list stands in for the Python set. -/
def toolSet (reqs : List (Option ReqSet)) : List String :=
  ((reqs.map contributedKeys).flatten).dedup

/-- The union of the option sets contributed for one name (options in the
source); a deduplicated list stands in for the Python set. -/
def unionOpts (reqs : List (Option ReqSet)) (tool : String) : List PyOpt :=
  ((reqs.map (contributedOpts tool)).flatten).dedup

/-- The merged value stored under one tool name by combine_reqs: the
option union when it is truthy, else None. -/
def combine_entry (reqs : List (Option ReqSet)) (tool : String) :
    Option (List PyOpt) :=
  if (unionOpts reqs tool).isEmpty then none else some (unionOpts reqs tool)

/-- combine_reqs from factory.py: merge a list of requirement dicts.  An
empty input list returns the empty dict; otherwise every name seen in a
truthy input becomes a key, mapped to the union of the truthy option
lists for it, or to None when that union is empty.  The inner constant
check `if tool_set:` of the source is dropped as it is always true inside
the loop over tool_set. -/
def combine_reqs (reqs : List (Option ReqSet)) : ReqSet :=
  if reqs.isEmpty then []
  else (toolSet reqs).map (fun tool => (tool, combine_entry reqs tool))

/-- The per-entry expansion inside convert_to_unique_keys from
factory.py: a falsy options entry gives the bare name, otherwise one key
name:option per option, with None printing as "None". -/
def unique_keys_of_entry (e : String × Option (List PyOpt)) : List String :=
  match e.2 with
  | none => [e.1]
  | some options =>
    if options.isEmpty then [e.1]
    else options.map (fun o => e.1 ++ ":" ++ pyStr o)

/-- convert_to_unique_keys from factory.py, continued: dispatch on the
None-or-dict argument. -/
def convert_to_unique_keys : Option ReqSet → List String
  | none => []
  | some l => if l.isEmpty then [] else (l.map unique_keys_of_entry).flatten

/-- A total order on Python option values used to model sorted() on a
list of options.  Python itself raises a TypeError when a list mixes None
with strings; the embedding totalises the comparison (None first and
strings by their character lists).  On lists that Python can sort, the
sorted-lists-equal test agrees with this one, because under any linear
order it is exactly multiset equality. -/
def optle (a b : PyOpt) : Prop :=
  match a, b with
  | none, _ => True
  | some _, none => False
  | some x, some y => x.data ≤ y.data

instance : DecidableRel optle := fun a b =>
  match a, b with
  | none, none => .isTrue trivial
  | none, some _ => .isTrue trivial
  | some _, none => .isFalse id
  | some x, some y => inferInstanceAs (Decidable (x.data ≤ y.data))

instance : IsTotal PyOpt optle where
  total a b :=
    match a, b with
    | none, _ => Or.inl trivial
    | some _, none => Or.inr trivial
    | some x, some y => (le_total x.data y.data).imp id id

instance : IsTrans PyOpt optle where
  trans a b c hab hbc :=
    match a, b, c, hab, hbc with
    | none, _, _, _, _ => trivial
    | some _, none, _, h, _ => h.elim
    | some _, some _, none, _, h => h.elim
    | some _, some _, some _, h1, h2 => le_trans h1 h2

instance : IsAntisymm PyOpt optle where
  antisymm a b hab hba :=
    match a, b, hab, hba with
    | none, none, _, _ => rfl
    | none, some _, _, h => h.elim
    | some _, none, h, _ => h.elim
    | some x, some y, h1, h2 => by
      cases x; cases y
      exact congrArg (fun l => some (String.mk l)) (le_antisymm h1 h2)

/-- list_equals from factory.py, at the type it is applied to for option
lists: both None, or same length and equal once sorted.  This total
version serves as the spec-level comparison behind the requirement-set
equality relation of the algebraic claims; it returns a Boolean on two
argument shapes where the source raises instead of returning (a list
compared against None raises a TypeError at len, and sorting a list
whose elements mix None with strings, or repeat None, raises a
TypeError inside sorted).  The run model list_equals_run below keeps
those raise paths. -/
def list_equals (l1 l2 : Option (List PyOpt)) : Bool :=
  match l1, l2 with
  | none, none => true
  | none, some _ => false
  | some _, none => false
  | some a, some b =>
    if a.length = b.length then
      decide (List.insertionSort optle a = List.insertionSort optle b)
    else false

/-- A linear order on strings by their character lists, used to model
sorted() on the key lists.  Any linear order gives the sorted-equal test
the same meaning, namely multiset equality, and this one evaluates
inside the kernel, unlike the builtin string order. -/
def strle (a b : String) : Prop := a.data ≤ b.data

instance : DecidableRel strle := fun a b =>
  inferInstanceAs (Decidable (a.data ≤ b.data))

instance : IsTotal String strle where
  total a b := le_total a.data b.data

instance : IsTrans String strle where
  trans _ _ _ hab hbc := le_trans hab hbc

instance : IsAntisymm String strle where
  antisymm a b hab hba := by
    cases a; cases b
    exact congrArg String.mk (le_antisymm hab hba)

/-- list_equals from factory.py, at the type it is applied to for the key
lists list(d1) and list(d2) (the same duck-typed source function): same
length and equal once sorted. -/
def key_list_equals (k1 k2 : List String) : Bool :=
  if k1.length = k2.length then
    decide (List.insertionSort strle k1 = List.insertionSort strle k2)
  else false

/-- equals from factory.py: key lists pass list_equals, then every entry
of d1 passes list_equals against the entry of d2 under the same key.
This total version is the spec-level requirement-set equality relation
used by the algebraic claims; the unreachable lookup-miss branch stands
in for the KeyError Python would raise there (the preceding key check
makes it unreachable), and the per-entry comparison inherits the
totalisation of list_equals.  The run model equals_run below keeps the
raise paths of the source. -/
def equals (d1 d2 : ReqSet) : Bool :=
  if key_list_equals (keysOf d1) (keysOf d2) then
    d1.all (fun e =>
      match d2.lookup e.1 with
      | some v2 => list_equals e.2 v2
      | none => false)
  else false

/-- A list Python sorted() orders without raising: length at most one
(no comparison happens), or every element a string.  Any longer list
holding a None puts that None into some comparison, and every
comparison against None raises a TypeError. -/
def sortable (l : List PyOpt) : Bool :=
  decide (l.length ≤ 1) || l.all (fun x => x.isSome)

/-- Sortability of one entry value: None is never sorted. -/
def entry_sortable : Option (List PyOpt) → Bool
  | none => true
  | some l => sortable l

/-- list_equals exactly as the source runs, with none standing for a
raised TypeError: a list compared against None raises at len(l2), and
when the lengths agree the source sorts l1 and then l2, raising on the
first unsortable one.  On sortable lists Python sorts by the string
order, which the character-list order reproduces. -/
def list_equals_run (l1 l2 : Option (List PyOpt)) : Option Bool :=
  match l1, l2 with
  | none, none => some true
  | none, some _ => some false
  | some _, none => none
  | some a, some b =>
    if a.length = b.length then
      if sortable a then
        if sortable b then
          some (decide (List.insertionSort optle a = List.insertionSort optle b))
        else none
      else none
    else some false

/-- The entry loop of equals under the run model: a raise from
list_equals_run, or the KeyError of a failed lookup (unreachable after
the key check), propagates as none; a False comparison returns
immediately. -/
def equals_entries_run (d2 : ReqSet) :
    List (String × Option (List PyOpt)) → Option Bool
  | [] => some true
  | e :: rest =>
    match d2.lookup e.1 with
    | none => none
    | some v2 =>
      match list_equals_run e.2 v2 with
      | none => none
      | some false => some false
      | some true => equals_entries_run d2 rest

/-- equals exactly as the source runs: the key lists hold strings and
always sort, then the entries of d1 are compared in order under the run
model. -/
def equals_run (d1 d2 : ReqSet) : Option Bool :=
  if key_list_equals (keysOf d1) (keysOf d2) then equals_entries_run d2 d1
  else some false

/-- Faults raised by the engine, one constructor per raise site. -/
inductive Err where
  | invalidOption (o : PyOpt) : Err
  | missingReq (key : String) : Err
  | missingReqs (ks : List String) : Err
  | cyclicDep (w : Nat) : Err
  | brokenDep (w : Nat) : Err
deriving DecidableEq

/-- Class-level Tool descriptor: the class attributes read by the engine.
The valid and invalid option lists model the Python attributes, with []
standing for Python None (the source only tests their truthiness and
membership, which agree under this encoding).  The opaque config object
is not modelled: the engine never reads it. -/
structure ToolSpec where
  requirements : List String
  options_enabled : Bool
  valid_options : List PyOpt
  invalid_options : List PyOpt
deriving DecidableEq

/-- A Tool instance: its descriptor, its validated option, and the
resource pool stored by build.  The engine only ever reads the key list
of a pool (list(resource)), so the stored pool is modelled by its keys;
the pooled values are opaque to the engine. -/
structure ToolInst where
  spec : ToolSpec
  option : PyOpt
  resources : List String
deriving DecidableEq

namespace Tool

/-- Tool._validate_option: reject an option missing from a truthy
valid_options list or present in a truthy invalid_options list. -/
def validate_option (spec : ToolSpec) (o : PyOpt) : Except Err PyOpt :=
  if !spec.valid_options.isEmpty ∧ o ∉ spec.valid_options then
    .error (.invalidOption o)
  else if !spec.invalid_options.isEmpty ∧ o ∈ spec.invalid_options then
    .error (.invalidOption o)
  else .ok o

/-- Tool.__init__: validate the option and store it; resources start out
empty (the class attribute is an empty dict). -/
def init (spec : ToolSpec) (o : PyOpt) : Except Err ToolInst :=
  match validate_option spec o with
  | .error e => .error e
  | .ok o => .ok ⟨spec, o, []⟩

/-- Tool.get_requirements: None when the descriptor has no requirement
names; otherwise a dict with one entry per requirement name, holding the
single-element list with this option when options_enabled, else None.
The dict comprehension of the source collapses duplicate names; dedup
models that collapse. -/
def get_requirements (t : ToolInst) : Option ReqSet :=
  if t.spec.requirements.isEmpty then none
  else
    some (t.spec.requirements.dedup.map (fun req =>
      (req, if t.spec.options_enabled then some [t.option] else none)))

/-- Tool.build: raise on the first unique key absent from the pool keys,
else store the pool. -/
def build (t : ToolInst) (resource : List String) : Except Err ToolInst :=
  match (convert_to_unique_keys (get_requirements t)).find?
      (fun k => !resource.contains k) with
  | some k => .error (.missingReq k)
  | none => .ok { t with resources := resource }

end Tool

/-- A WorkStation: the registry of tool constructors (class attribute
tools, an ordered name-to-descriptor map), the wiring set by connect
(managers and suppliers, [] standing for Python None, whose truthiness
agrees), the traversal depth, and the mutable engagement state.  Stations
live in a global list and are referred to by index. -/
structure WS where
  tools : List (String × ToolSpec)
  managers : List Nat
  suppliers : List Nat
  depth : Nat
  requirements : ReqSet
  resources : List (String × ToolInst)
  supplier_resources : List (String × ToolInst)
deriving DecidableEq

/-- A fresh, unconnected station with an empty registry; also the value
read for an index outside the station list. -/
def defaultWS : WS := ⟨[], [], [], 0, [], [], []⟩

/-- The graph state: all stations, indexed by position. -/
abbrev State := List WS

/-- Station number i of the state. -/
def wsAt (st : State) (i : Nat) : WS := st.getD i defaultWS

/-- Replace station number i (no effect out of range, where no station
exists to mutate). -/
def setWS (st : State) (i : Nat) (w : WS) : State := st.set i w

/-- Supplier edges of station v. -/
def suppliersOf (st : State) (v : Nat) : List Nat := (wsAt st v).suppliers

/-- Manager edges of station v. -/
def managersOf (st : State) (v : Nat) : List Nat := (wsAt st v).managers

/-- Python dict item assignment d[k] = v: replace in place the value of
an existing key, else append a new entry. -/
def dictSet {α : Type} (d : List (String × α)) (k : String) (v : α) :
    List (String × α) :=
  match d with
  | [] => [(k, v)]
  | e :: rest => if e.1 = k then (k, v) :: rest else e :: dictSet rest k v

/-- Python dict.update(other): assign every entry of other in order. -/
def dictUpdate {α : Type} (d other : List (String × α)) : List (String × α) :=
  other.foldl (fun acc e => dictSet acc e.1 e.2) d

namespace WorkStation

/-- Instantiations made for one registry entry against one manager
requirement entry whose key matched the tool name: one instance per
option when the options are truthy, else a single bare instance.  Each
element pairs the resource key with the instance; get_requirements of the
instance is what engage appends to all_requirements, recovered later from
the instance itself. -/
def init_one (spec : ToolSpec) (name : String) (options : Option (List PyOpt)) :
    Except Err (List (String × ToolInst)) :=
  match options with
  | some opts =>
    if opts.isEmpty then
      (Tool.init spec none).map (fun inst => [(name, inst)])
    else
      opts.mapM (fun o =>
        (Tool.init spec o).map (fun inst => (name ++ ":" ++ pyStr o, inst)))
  | none => (Tool.init spec none).map (fun inst => [(name, inst)])

/-- Instantiations for one registry entry: the inner loop of engage over
manager_requirements, keeping only entries whose key equals the tool
name (at most one for a genuine dict). -/
def init_for_entries (spec : ToolSpec) (name : String) :
    ReqSet → Except Err (List (String × ToolInst))
  | [] => .ok []
  | e :: rest => do
    let head ← if e.1 = name then init_one spec name e.2 else pure []
    let tail ← init_for_entries spec name rest
    pure (head ++ tail)

/-- The instantiation pairs engage creates, in registry order (outer loop
over tools, inner loop over manager requirements). -/
def instantiation_pairs (mreqs : ReqSet) :
    List (String × ToolSpec) → Except Err (List (String × ToolInst))
  | [] => .ok []
  | (name, spec) :: rest => do
    let head ← init_for_entries spec name mreqs
    let tail ← instantiation_pairs mreqs rest
    pure (head ++ tail)

/-- True when some supplier of the station registers a tool of the given
name whose descriptor does not enable options. -/
def strippedBySupplier (st : State) (suppliers : List Nat) (req : String) :
    Bool :=
  suppliers.any (fun s =>
    (wsAt st s).tools.any (fun t => req = t.1 ∧ !t.2.options_enabled))

/-- The cleanup pass at the end of engage: an entry with truthy options
is reset to None when a supplier registers the same name without options
enabled.  The source mutates values in place while iterating, touching
only the key under iteration, so it acts as this entrywise map. -/
def cleanup_reqs (st : State) (suppliers : List Nat) (reqs : ReqSet) :
    ReqSet :=
  reqs.map (fun e =>
    if (!suppliers.isEmpty
        && (match e.2 with | some l => !l.isEmpty | none => false)
        && strippedBySupplier st suppliers e.1) = true
    then (e.1, none) else e)

/-- gather_manager_requirements: combine the requirement dicts of the
managers (an empty manager list combines an empty list). -/
def gather_manager_requirements (st : State) (i : Nat) : ReqSet :=
  combine_reqs ((wsAt st i).managers.map (fun m => some (wsAt st m).requirements))

/-- WorkStation.engage: with no registry, adopt the manager requirements
verbatim; otherwise instantiate the matching tool variants into the
resource map, combine their requirement dicts, and run the cleanup pass.
On an invalid-option fault the source leaves earlier instantiations
behind while raising; the error result drops them, which no claim
observes. -/
def engage (st : State) (i : Nat) : Except Err State :=
  if (wsAt st i).tools.isEmpty then
    .ok (setWS st i
      { wsAt st i with requirements := gather_manager_requirements st i })
  else
    match instantiation_pairs (gather_manager_requirements st i)
        (wsAt st i).tools with
    | .error e => .error e
    | .ok pairs =>
      .ok (setWS st i { wsAt st i with
        resources :=
          pairs.foldl (fun acc p => dictSet acc p.1 p.2) (wsAt st i).resources,
        requirements := cleanup_reqs st (wsAt st i).suppliers
          (combine_reqs (pairs.map (fun p => Tool.get_requirements p.2))) })

/-- validate_suppliers: every key of the own requirement set must be
offered by some supplier registry; the fault carries the missing names
(a set in the source, deduplicated here). -/
def validate_suppliers (st : State) (i : Nat) : Except Err Unit :=
  let ws := wsAt st i
  let supplier_tools :=
    ws.suppliers.foldl (fun acc s => dictUpdate acc (wsAt st s).tools) []
  let missing :=
    ((keysOf ws.requirements).filter
      (fun k => !(keysOf supplier_tools).contains k)).dedup
  if missing.isEmpty then .ok () else .error (.missingReqs missing)

/-- One pass of the tool loop in WorkStation.build: build each owned
instance against the pool keys, storing the built instance back; on a
fault, keep the instances already built (the source mutates in place
before raising). -/
def build_tools (pool : List String) :
    List (String × ToolInst) → (List (String × ToolInst) × Option Err)
  | [] => ([], none)
  | (k, t) :: rest =>
    match Tool.build t pool with
    | .error e => ((k, t) :: rest, some e)
    | .ok t2 =>
      let (rest2, err) := build_tools pool rest
      ((k, t2) :: rest2, err)

/-- WorkStation.build: merge the supplier resource maps into the imported
pool, then build every owned instance against it in map order.  Returns
the mutated state and the fault, if any, of the first failing tool. -/
def build (st : State) (i : Nat) : State × Option Err :=
  let ws := wsAt st i
  let supres :=
    if ws.suppliers.isEmpty then ws.supplier_resources
    else ws.suppliers.foldl
      (fun acc s => dictUpdate acc (wsAt st s).resources) ws.supplier_resources
  let (res2, err) :=
    if ws.resources.isEmpty then (ws.resources, none)
    else build_tools (keysOf supres) ws.resources
  (setWS st i { ws with supplier_resources := supres, resources := res2 }, err)

end WorkStation

/-- Loop body of the is_cyclic depth-first visit: walk the supplier list;
a supplier already on the recursion path, or one whose recursive visit
reports a vertex, is returned immediately (the source returns the loop
variable supplier, not the vertex the recursive call reported).  The
recursive visit is passed in as f. -/
def cgo (f : Nat → Finset Nat → Finset Nat → Option Nat × Finset Nat × Finset Nat) :
    List Nat → Finset Nat → Finset Nat → Option Nat × Finset Nat × Finset Nat
  | [], path, visited => (none, path, visited)
  | s :: rest, path, visited =>
    if s ∈ path then (some s, path, visited)
    else
      match f s path visited with
      | (some _, p2, v2) => (some s, p2, v2)
      | (none, p2, v2) => cgo f rest p2 v2

/-- The visit closure of is_cyclic, with fuel bounding the recursion
depth (each nested call enters a vertex absent from the growing visited
set, and only in-range vertices have suppliers, so length + 2 levels
suffice).  The Python False and None returns are both falsy and collapse
to none.  The path entry of the vertex is removed only when the loop
falls through, as in the source. -/
def cvisit (st : State) : Nat → Nat → Finset Nat → Finset Nat →
    Option Nat × Finset Nat × Finset Nat
  | 0, _, path, visited => (none, path, visited)
  | fuel + 1, v, path, visited =>
    if v ∈ visited then (none, path, visited)
    else
      match cgo (fun s p vv => cvisit st fuel s p vv) (suppliersOf st v)
          (insert v path) (insert v visited) with
      | (none, p, vis) => (none, p.erase v, vis)
      | r => r

/-- is_cyclic from factory.py: run the visit from start on empty path and
visited sets and keep the reported vertex. -/
def is_cyclic (st : State) (start : Nat) : Option Nat :=
  (cvisit st (st.length + 2) start ∅ ∅).1

/-- broken_link from factory.py: a supplier with no managers, or one not
listing the current vertex among its managers, is broken. -/
def broken_link (st : State) (manager supplier : Nat) : Bool :=
  if (wsAt st supplier).managers.isEmpty then true
  else if !(wsAt st supplier).managers.contains manager then true
  else false

/-- Loop body of the is_broken depth-first visit: skip suppliers already
visited; report the loop supplier when its link is broken or when its
recursive visit (passed in as f) reports a vertex. -/
def bgo (st : State) (v : Nat) (f : Nat → Finset Nat → Option Nat × Finset Nat) :
    List Nat → Finset Nat → Option Nat × Finset Nat
  | [], visited => (none, visited)
  | s :: rest, visited =>
    if s ∈ visited then bgo st v f rest visited
    else if broken_link st v s then (some s, visited)
    else
      match f s visited with
      | (some _, v2) => (some s, v2)
      | (none, v2) => bgo st v f rest v2

/-- The visit closure of is_broken, fuel as for cvisit. -/
def bvisit (st : State) : Nat → Nat → Finset Nat → Option Nat × Finset Nat
  | 0, _, visited => (none, visited)
  | fuel + 1, v, visited =>
    bgo st v (fun s vv => bvisit st fuel s vv) (suppliersOf st v)
      (insert v visited)

/-- is_broken from factory.py. -/
def is_broken (st : State) (start : Nat) : Option Nat :=
  (bvisit st (st.length + 2) start ∅).1

/-- Loop body of build_graph_depth over a supplier list: raise the
supplier depth to the current depth when smaller, then recurse (the
source recurses unconditionally) through f. -/
def bgdgo (f : Nat → State → List Nat → State × List Nat) (depth : Nat) :
    List Nat → State → List Nat → State × List Nat
  | [], st, visited => (st, visited)
  | s :: rest, st, visited =>
    let st2 :=
      if (wsAt st s).depth < depth then
        setWS st s { wsAt st s with depth := depth }
      else st
    let (st3, vis3) := f s st2 visited
    bgdgo f depth rest st3 vis3

/-- build_graph_depth from factory.py: depth-first walk recording the
longest path depth on each station; the visited list is appended to and
returned but never pruned on, exactly as in the source (which therefore
only terminates on acyclic graphs; the fuel caps the recursion here). -/
def build_graph_depth : Nat → Nat → State → List Nat → Nat → State × List Nat
  | 0, _, st, visited, _ => (st, visited)
  | fuel + 1, node, st, visited, depth =>
    let visited := visited ++ [node]
    if (wsAt st node).suppliers.isEmpty then (st, visited)
    else
      bgdgo (fun s st2 vis2 => build_graph_depth fuel s st2 vis2 (depth + 1))
        (depth + 1) (wsAt st node).suppliers st visited

/-- Stable insertion of a station after all stations of smaller or equal
depth, the building block of the stable ascending sort. -/
def insert_by_depth (st : State) (x : Nat) : List Nat → List Nat
  | [] => [x]
  | y :: rest =>
    if (wsAt st y).depth ≤ (wsAt st x).depth then y :: insert_by_depth st x rest
    else x :: y :: rest

/-- order_by_distance from factory.py: the candidates sorted by depth,
ascending and stable, as Python sorted guarantees. -/
def order_by_distance (st : State) : List Nat → List Nat
  | [] => []
  | x :: rest => insert_by_depth st x (order_by_distance st rest)

/-- The supplier enqueueing step of the engagement loop: append each
ordered supplier not yet visited to both the queue and the visited log. -/
def enqueue_suppliers (ordered queue visited : List Nat) :
    List Nat × List Nat :=
  ordered.foldl
    (fun acc s => if s ∈ acc.2 then acc else (acc.1 ++ [s], acc.2 ++ [s]))
    (queue, visited)

/-- Stage 2 of the driver: breadth-first engagement from the queue,
validating suppliers and enqueueing them shallowest first.  Returns the
state, the visit log, and the first fault if one was raised. -/
def stage2 : Nat → State → List Nat → List Nat →
    State × List Nat × Option Err
  | 0, st, _, visited => (st, visited, none)
  | fuel + 1, st, queue, visited =>
    match queue with
    | [] => (st, visited, none)
    | current :: rest =>
      match WorkStation.engage st current with
      | .error e => (st, visited, some e)
      | .ok st2 =>
        if (wsAt st2 current).suppliers.isEmpty then
          stage2 fuel st2 rest visited
        else
          match WorkStation.validate_suppliers st2 current with
          | .error e => (st2, visited, some e)
          | .ok _ =>
            let ordered := order_by_distance st2 (wsAt st2 current).suppliers
            let (q2, v2) := enqueue_suppliers ordered rest visited
            stage2 fuel st2 q2 v2

/-- Stage 3 of the driver: build the stations in the given order,
logging each station after its build succeeds, stopping at the first
fault. -/
def stage3 : Nat → State → List Nat → List Nat →
    State × List Nat × Option Err
  | 0, st, _, visited => (st, visited, none)
  | fuel + 1, st, queue, visited =>
    match queue with
    | [] => (st, visited, none)
    | current :: rest =>
      match WorkStation.build st current with
      | (st2, some e) => (st2, visited, some e)
      | (st2, none) => stage3 fuel st2 rest (visited ++ [current])

/-- The driver build from factory.py: validate the graph, compute depth,
engage breadth-first, then build in reverse visitation order.  The
returned list is the concatenated visit log of stages 2 and 3 up to the
first fault; the source raises at that point, and the triple records the
exception together with the state mutated so far. -/
def build (st : State) (start : Nat) : List Nat × State × Option Err :=
  match is_cyclic st start with
  | some w => ([], st, some (.cyclicDep w))
  | none =>
  match is_broken st start with
  | some w => ([], st, some (.brokenDep w))
  | none =>
    let fuel := st.length + 2
    let (st1, _) := build_graph_depth fuel start st [] 0
    match stage2 fuel st1 [start] [start] with
    | (st2, visited2, some e) => (visited2, st2, some e)
    | (st2, visited2, none) =>
      match stage3 fuel st2 visited2.reverse [] with
      | (st3, visited3, err) => (visited2 ++ visited3, st3, err)

/-
Concrete scenario of claim C1: the three-stage chain Root (station 0,
empty registry, managed by the externally seeded station 3 demanding
csv with option car), Mid (station 1, registers csv carrying options
through with requirement raw), Leaf (station 2, registers raw without
option carry-through).
-/

/-- Registry entry of Mid: csv carries options through and requires raw. -/
def csvSpec : ToolSpec := ⟨["raw"], true, [], []⟩

/-- Registry entry of Leaf: raw, no option carry-through, no needs. -/
def rawSpec : ToolSpec := ⟨[], false, [], []⟩

/-- The wired chain: 0 = Root, 1 = Mid, 2 = Leaf, 3 = external manager
seeded with the demand for csv:car. -/
def c1State : State :=
  [ ⟨[], [3], [1], 0, [], [], []⟩,
    ⟨[("csv", csvSpec)], [0], [2], 0, [], [], []⟩,
    ⟨[("raw", rawSpec)], [1], [], 0, [], [], []⟩,
    ⟨[], [], [0], 0, [("csv", some [some "car"])], [], []⟩ ]

/-- The relation the amended equality claim uses on entry values: both
None, or permutable option lists (equal as multisets). -/
def entry_perm : Option (List PyOpt) → Option (List PyOpt) → Prop
  | none, none => True
  | some a, some b => List.Perm a b
  | _, _ => False

/-- One input specifies the option value x for the name k: the condition
under which an input contributes x to the merged option union. -/
def OptIn (reqs : List (Option ReqSet)) (k : String) (x : PyOpt) : Prop :=
  ∃ d opts, some d ∈ reqs ∧ d.lookup k = some (some opts) ∧ x ∈ opts

/-- Reachability along supplier edges (zero or more hops). -/
inductive Reaches (st : State) : Nat → Nat → Prop
  | refl (v : Nat) : Reaches st v v
  | step {v s w : Nat} : s ∈ suppliersOf st v → Reaches st s w →
      Reaches st v w

/-- A supplier-edge cycle exists somewhere in the state. -/
def HasCycle (st : State) : Prop :=
  ∃ u t, t ∈ suppliersOf st u ∧ Reaches st t u

/-- Every supplier edge has its matching manager edge. -/
def LinkConsistent (st : State) : Prop :=
  ∀ v s, s ∈ suppliersOf st v → v ∈ managersOf st s

/-- A one-sided edge: a supplier that does not list its manager. -/
def OneSided (st : State) : Prop :=
  ∃ a b, b ∈ suppliersOf st a ∧ a ∉ managersOf st b

/-- A supplier-edge cycle reachable from a given vertex. -/
def CycleFrom (st : State) (v : Nat) : Prop :=
  ∃ c t, Reaches st v c ∧ t ∈ suppliersOf st c ∧ Reaches st t c

/-- The invariant of the depth-first cycle search: every visited vertex
off the current recursion path is fully explored, so its suppliers are
visited and off the path, and no cycle is reachable from it. -/
def BlackInv (st : State) (p vv : Finset Nat) : Prop :=
  ∀ u ∈ vv, u ∉ p →
    (∀ s ∈ suppliersOf st u, s ∈ vv ∧ s ∉ p) ∧ ¬ CycleFrom st u

/-- A single station with no edges. -/
def acyclicSt : State := [⟨[], [], [], 0, [], [], []⟩]

/-- A two-station cycle: 0 and 1 supply each other, links consistent. -/
def cyclicSt : State :=
  [ ⟨[], [1], [1], 0, [], [], []⟩,
    ⟨[], [0], [0], 0, [], [], []⟩ ]

/-- A three-station chain 0 to 1 to 2 whose second edge is one-sided:
station 2 does not list its manager 1. -/
def brokenSt : State :=
  [ ⟨[], [], [1], 0, [], [], []⟩,
    ⟨[], [0], [2], 0, [], [], []⟩,
    ⟨[], [], [], 0, [], [], []⟩ ]

/-- C1: in the Root-Mid-Leaf chain the claim expects Mid to instantiate
exactly csv:car, the Mid requirement set to end up as raw mapped to None
after cleanup, Leaf to instantiate the bare key raw, and the build pass
to process Leaf, Mid, Root.  The first three expectations hold, but the
build pass crashes at Mid: the csv instance still demands the unique key
raw:car from the pool, which only offers the bare key raw that Leaf
built after the cleanup stripped the option.  The visit log is the
engagement order 0, 1, 2 followed by the lone successful build of Leaf
(station 2), and the driver raises the missing-requirement fault for
raw:car, so Root is never built. -/
theorem c1_chain_scenario :
    (wsAt (build c1State 0).2.1 1).resources.map Prod.fst = ["csv:car"]
    ∧ (wsAt (build c1State 0).2.1 1).requirements = [("raw", none)]
    ∧ (wsAt (build c1State 0).2.1 2).resources.map Prod.fst = ["raw"]
    ∧ (build c1State 0).1 = [0, 1, 2, 2]
    ∧ (build c1State 0).2.2 = some (.missingReq "raw:car") := by
  refine ⟨?_, ?_, ?_, ?_, ?_⟩ <;> rfl

section ToolClaims

/-- Keys of a key-value map built from a key list are that key list. -/
theorem keysOf_map_pair {α : Type} (l : List String) (g : String → α) :
    keysOf (l.map (fun k => (k, g k))) = l := by
  induction l with
  | nil => rfl
  | cons x rest ih => simpa [keysOf] using ih

/-- Flattening a list of singletons is a map. -/
theorem flatten_map_singleton {α β : Type} (l : List α) (g : α → β) :
    (l.map (fun x => [g x])).flatten = l.map g := by
  induction l with
  | nil => rfl
  | cons x rest ih => simp_all

/-- The error case of Tool.build, characterised: some unique key of the
declared needs is absent from the pool keys. -/
theorem tool_build_error_iff (t : ToolInst) (pool : List String) :
    (∃ e, Tool.build t pool = .error e) ↔
      ∃ k ∈ convert_to_unique_keys (Tool.get_requirements t), k ∉ pool := by
  unfold Tool.build
  rcases hf : (convert_to_unique_keys (Tool.get_requirements t)).find?
      (fun k => !pool.contains k) with _ | k
  · constructor
    · rintro ⟨e, he⟩; cases he
    · rintro ⟨k, hk, hnot⟩
      rw [List.find?_eq_none] at hf
      exact absurd (by simpa using hf k hk) hnot
  · constructor
    · intro _
      refine ⟨k, List.mem_of_find?_eq_some hf, ?_⟩
      have := List.find?_some hf
      simpa using this
    · intro _; exact ⟨.missingReq k, rfl⟩

/-- The success case of Tool.build stores the pool keys. -/
theorem tool_build_ok (t : ToolInst) (pool : List String) (t2 : ToolInst)
    (h : Tool.build t pool = .ok t2) : t2 = { t with resources := pool } := by
  unfold Tool.build at h
  rcases hf : (convert_to_unique_keys (Tool.get_requirements t)).find?
      (fun k => !pool.contains k) with _ | k <;> rw [hf] at h
  · cases h; rfl
  · cases h

/-- C8: Tool.build fails with a missing-requirement fault exactly when
some unique key of the declared needs is absent from the key set of the
resource pool, and when no key is absent it succeeds and stores the pool
on the instance. -/
theorem tool_build_missing_iff (t : ToolInst) (pool : List String) :
    ((∃ e, Tool.build t pool = .error e) ↔
      ∃ k ∈ convert_to_unique_keys (Tool.get_requirements t), k ∉ pool)
    ∧ (∀ t2, Tool.build t pool = .ok t2 → t2 = { t with resources := pool }) :=
  ⟨tool_build_error_iff t pool, fun t2 h => tool_build_ok t pool t2 h⟩

/-- Witness for the success branch of the Tool.build theorem at a
concrete instance and pool. -/
theorem tool_build_missing_iff_witness :
    Tool.build ⟨⟨["a"], false, [], []⟩, none, []⟩ ["a"]
      = .ok ⟨⟨["a"], false, [], []⟩, none, ["a"]⟩ := by
  have h := (tool_build_missing_iff ⟨⟨["a"], false, [], []⟩, none, []⟩ ["a"]).2
  rcases hb : Tool.build ⟨⟨["a"], false, [], []⟩, none, []⟩ ["a"] with e | t2
  · exact absurd hb (by rw [show Tool.build ⟨⟨["a"], false, [], []⟩, none, []⟩ ["a"]
      = .ok ⟨⟨["a"], false, [], []⟩, none, ["a"]⟩ from rfl]; simp)
  · rw [h t2 hb]

/-- C7 counterexample: a tool with an empty requirement list returns
None from get_requirements, which is not the empty requirement dict the
claim promises. -/
theorem get_requirements_none_counterexample :
    Tool.get_requirements ⟨⟨[], false, [], []⟩, none, []⟩ = none
    ∧ (none : Option ReqSet) ≠ some [] := ⟨rfl, by simp⟩

/-- C7 amended: get_requirements returns None (not an empty dict) when
the descriptor has no requirement names; otherwise it returns a dict
whose keys are exactly the requirement names, every entry holding the
single-element option list with this option when options_enabled is set
and None when it is not. -/
theorem get_requirements_spec (t : ToolInst) :
    (t.spec.requirements = [] → Tool.get_requirements t = none)
    ∧ (t.spec.requirements ≠ [] →
        ∃ d, Tool.get_requirements t = some d
          ∧ (∀ k, k ∈ keysOf d ↔ k ∈ t.spec.requirements)
          ∧ ∀ e ∈ d,
              e.2 = if t.spec.options_enabled then some [t.option] else none) := by
  constructor
  · intro h; unfold Tool.get_requirements; simp [h]
  · intro h
    refine ⟨t.spec.requirements.dedup.map
      (fun req => (req, if t.spec.options_enabled then some [t.option] else none)),
      ?_, ?_, ?_⟩
    · unfold Tool.get_requirements
      simp [List.isEmpty_iff, h]
    · intro k; rw [keysOf_map_pair]; exact List.mem_dedup
    · intro e he
      rcases List.mem_map.1 he with ⟨r, _, rfl⟩
      rfl

/-- Witness for the C7 amended theorem at a concrete option-carrying
tool with one requirement. -/
theorem get_requirements_spec_witness :
    ∃ d, Tool.get_requirements ⟨⟨["raw"], true, [], []⟩, some "car", []⟩ = some d
      ∧ (∀ k, k ∈ keysOf d ↔ k ∈ ["raw"])
      ∧ ∀ e ∈ d, e.2 = if true then some [some "car"] else none := by
  have h := (get_requirements_spec ⟨⟨["raw"], true, [], []⟩, some "car", []⟩).2
    (by simp)
  exact h

/-- C10: a descriptor with options_enabled and a nonempty requirement
list, instantiated with no option, declares every requirement with the
single-element option list holding None, its unique keys all get the
literal suffix :None, and its build fails on a pool that offers only
bare requirement names (assuming no requirement name itself ends in the
:None suffix of another). -/
theorem option_none_carry_through (spec : ToolSpec)
    (hopt : spec.options_enabled = true) (hreq : spec.requirements ≠ []) :
    (∀ d, Tool.get_requirements ⟨spec, none, []⟩ = some d →
      (∀ k, k ∈ keysOf d ↔ k ∈ spec.requirements) ∧ ∀ e ∈ d, e.2 = some [none])
    ∧ convert_to_unique_keys (Tool.get_requirements ⟨spec, none, []⟩)
        = spec.requirements.dedup.map (fun n => n ++ ":" ++ "None")
    ∧ ∀ pool, (∀ k ∈ pool, k ∈ spec.requirements) →
        (∀ n ∈ spec.requirements, (n ++ ":" ++ "None") ∉ spec.requirements) →
        ∃ e, Tool.build ⟨spec, none, []⟩ pool = .error e := by
  have hget : Tool.get_requirements ⟨spec, none, []⟩
      = some (spec.requirements.dedup.map (fun req => (req, some [(none : PyOpt)]))) := by
    unfold Tool.get_requirements
    simp [List.isEmpty_iff, hreq, hopt]
  have hkeys : convert_to_unique_keys (Tool.get_requirements ⟨spec, none, []⟩)
      = spec.requirements.dedup.map (fun n => n ++ ":" ++ "None") := by
    rw [hget]
    have hne : (spec.requirements.dedup.map
        (fun req => (req, some [(none : PyOpt)]))).isEmpty = false := by
      simp [List.isEmpty_iff, List.dedup_eq_nil, hreq]
    rw [convert_to_unique_keys, hne]
    simp only [Bool.false_eq_true, if_false, List.map_map]
    have : (unique_keys_of_entry ∘ fun req => (req, some [(none : PyOpt)]))
        = fun req => [req ++ ":" ++ "None"] := rfl
    rw [this]
    exact flatten_map_singleton spec.requirements.dedup _
  refine ⟨?_, hkeys, ?_⟩
  · intro d hd
    rw [hget] at hd
    cases hd
    constructor
    · intro k; rw [keysOf_map_pair]; exact List.mem_dedup
    · intro e he
      rcases List.mem_map.1 he with ⟨r, _, rfl⟩
      rfl
  · intro pool hpool hsane
    rw [tool_build_error_iff]
    rcases List.exists_mem_of_ne_nil spec.requirements hreq with ⟨n0, hn0⟩
    refine ⟨n0 ++ ":" ++ "None", ?_, ?_⟩
    · rw [hkeys]
      exact List.mem_map_of_mem _ (List.mem_dedup.2 hn0)
    · intro hmem
      exact hsane n0 hn0 (hpool _ hmem)

/-- Witness for the C10 theorem at a concrete descriptor with one
requirement and the bare-key pool. -/
theorem option_none_carry_through_witness :
    convert_to_unique_keys
        (Tool.get_requirements ⟨⟨["raw"], true, [], []⟩, none, []⟩)
      = ["raw"].dedup.map (fun n => n ++ ":" ++ "None")
    ∧ ∃ e, Tool.build ⟨⟨["raw"], true, [], []⟩, none, []⟩ ["raw"] = .error e := by
  have h := option_none_carry_through ⟨["raw"], true, [], []⟩ rfl (by simp)
  exact ⟨h.2.1, h.2.2 ["raw"] (by simp) (by decide)⟩

end ToolClaims

section EqualityClaims

/-- Sorted copies under a total, transitive, antisymmetric order agree
exactly on permutable lists. -/
theorem insertionSort_eq_iff_perm {α : Type} (r : α → α → Prop)
    [DecidableRel r] [IsTotal α r] [IsTrans α r] [IsAntisymm α r]
    (a b : List α) :
    List.insertionSort r a = List.insertionSort r b ↔ List.Perm a b := by
  constructor
  · intro h
    exact ((List.perm_insertionSort r a).symm.trans (h ▸ List.Perm.refl _)).trans
      (List.perm_insertionSort r b)
  · intro h
    exact List.eq_of_perm_of_sorted
      ((List.perm_insertionSort r a).trans
        (h.trans (List.perm_insertionSort r b).symm))
      (List.sorted_insertionSort r a) (List.sorted_insertionSort r b)

/-- list_equals on two genuine lists decides permutation, that is
multiset equality: order-insensitive but duplicate-count-sensitive. -/
theorem list_equals_some_iff (a b : List PyOpt) :
    list_equals (some a) (some b) = true ↔ List.Perm a b := by
  unfold list_equals
  by_cases h : a.length = b.length
  · simp only [h, if_true, decide_eq_true_eq]
    exact insertionSort_eq_iff_perm optle a b
  · simp only [h, if_false]
    constructor
    · intro hh; cases hh
    · intro hp; exact absurd hp.length_eq h

/-- key_list_equals decides permutation of the key lists. -/
theorem key_list_equals_iff (a b : List String) :
    key_list_equals a b = true ↔ List.Perm a b := by
  unfold key_list_equals
  by_cases h : a.length = b.length
  · simp only [h, if_true, decide_eq_true_eq]
    exact insertionSort_eq_iff_perm strle a b
  · simp only [h, if_false]
    constructor
    · intro hh; cases hh
    · intro hp; exact absurd hp.length_eq h

/-- A lookup succeeds exactly on the keys of the dict. -/
theorem lookup_isSome_iff {α : Type} (d : List (String × α)) (k : String) :
    (d.lookup k).isSome ↔ k ∈ keysOf d := by
  induction d with
  | nil => simp [keysOf]
  | cons e rest ih =>
    obtain ⟨k1, v1⟩ := e
    cases hbe : k == k1 with
    | true =>
      have hk : k = k1 := by simpa using hbe
      simp [List.lookup, hbe, keysOf, hk]
    | false =>
      have hk : ¬ k = k1 := by simpa using hbe
      simp only [List.lookup, hbe, keysOf, List.map_cons, List.mem_cons]
      rw [show keysOf rest = rest.map Prod.fst from rfl] at ih
      simp [ih, hk]

/-- A successful lookup returns an actual entry of the dict. -/
theorem lookup_eq_some_mem {α : Type} (d : List (String × α)) (k : String)
    (v : α) (h : d.lookup k = some v) : (k, v) ∈ d := by
  induction d with
  | nil => cases h
  | cons e rest ih =>
    obtain ⟨k1, v1⟩ := e
    cases hbe : k == k1 with
    | true =>
      have hk : k = k1 := by simpa using hbe
      rw [List.lookup, hbe] at h
      cases h
      subst hk
      exact List.mem_cons_self _ _
    | false =>
      rw [List.lookup, hbe] at h
      exact List.mem_cons_of_mem _ (ih h)

/-- In a dict with unique keys, every entry is found by lookup. -/
theorem nodup_lookup_entry {α : Type} (d : List (String × α))
    (hnd : (keysOf d).Nodup) (e : String × α) (he : e ∈ d) :
    d.lookup e.1 = some e.2 := by
  induction d with
  | nil => cases he
  | cons f rest ih =>
    obtain ⟨k1, v1⟩ := f
    have hnd2 : (keysOf rest).Nodup := (List.nodup_cons.1 (by simpa [keysOf] using hnd)).2
    have hout : k1 ∉ keysOf rest := (List.nodup_cons.1 (by simpa [keysOf] using hnd)).1
    rcases List.mem_cons.1 he with rfl | hmem
    · rw [List.lookup, show (k1 == k1) = true by simp]
    · cases hbe : e.1 == k1 with
      | true =>
        have hk : e.1 = k1 := by simpa using hbe
        have : k1 ∈ keysOf rest := hk ▸ List.mem_map_of_mem Prod.fst hmem
        exact absurd this hout
      | false =>
        rw [List.lookup, hbe]
        exact ih hnd2 hmem

/-- list_equals decides entry_perm. -/
theorem list_equals_iff_entry_perm (v1 v2 : Option (List PyOpt)) :
    list_equals v1 v2 = true ↔ entry_perm v1 v2 := by
  cases v1 <;> cases v2
  · simp [list_equals, entry_perm]
  · simp [list_equals, entry_perm]
  · simp [list_equals, entry_perm]
  · exact (list_equals_some_iff _ _).trans (by rfl)

/-- The full characterisation of equals on genuine dicts (unique keys):
equal key sets, and entries under a common key permutable (multiset
equality of the option lists, None only matching None). -/
theorem equals_iff_entry_perm (d1 d2 : ReqSet)
    (h1 : (keysOf d1).Nodup) (h2 : (keysOf d2).Nodup) :
    equals d1 d2 = true ↔
      ((∀ k, k ∈ keysOf d1 ↔ k ∈ keysOf d2)
       ∧ ∀ k v1 v2, d1.lookup k = some v1 → d2.lookup k = some v2 →
           entry_perm v1 v2) := by
  unfold equals
  by_cases hk : key_list_equals (keysOf d1) (keysOf d2) = true
  · rw [if_pos hk]
    have hperm := (key_list_equals_iff _ _).1 hk
    constructor
    · intro hall
      refine ⟨fun k => hperm.mem_iff, ?_⟩
      intro k v1 v2 hv1 hv2
      rw [List.all_eq_true] at hall
      have hmem := lookup_eq_some_mem d1 k v1 hv1
      have hthis := hall (k, v1) hmem
      rw [show ((k, v1) : String × Option (List PyOpt)).1 = k from rfl, hv2] at hthis
      exact (list_equals_iff_entry_perm _ _).1 hthis
    · rintro ⟨hkeys, hrel⟩
      rw [List.all_eq_true]
      intro e he
      have hv1 := nodup_lookup_entry d1 h1 e he
      have hin2 : e.1 ∈ keysOf d2 :=
        (hkeys e.1).1 ((lookup_isSome_iff d1 e.1).1 (by rw [hv1]; rfl))
      have hsome2 := (lookup_isSome_iff d2 e.1).2 hin2
      rcases ho : d2.lookup e.1 with _ | v2
      · rw [ho] at hsome2; cases hsome2
      · have hrel2 := hrel e.1 e.2 v2 hv1 ho
        exact (list_equals_iff_entry_perm _ _).2 hrel2
  · rw [if_neg hk]
    constructor
    · intro h; cases h
    · rintro ⟨hkeys, _⟩
      refine absurd ?_ hk
      rw [key_list_equals_iff]
      exact (List.perm_ext_iff_of_nodup h1 h2).2 hkeys

/-- Unfolding equation of list_equals_run on two genuine lists. -/
theorem list_equals_run_some_some (a b : List PyOpt) :
    list_equals_run (some a) (some b)
      = if a.length = b.length then
          if sortable a then
            if sortable b then
              some (decide
                (List.insertionSort optle a = List.insertionSort optle b))
            else none
          else none
        else some false := rfl

/-- list_equals_run returns true exactly on permutable entries whose
lists the source can sort (both None counts as equal). -/
theorem list_equals_run_true_iff (v1 v2 : Option (List PyOpt)) :
    list_equals_run v1 v2 = some true ↔
      (entry_perm v1 v2 ∧ entry_sortable v1 = true
        ∧ entry_sortable v2 = true) := by
  cases v1 with
  | none =>
    cases v2 with
    | none => simp [list_equals_run, entry_perm, entry_sortable]
    | some b => simp [list_equals_run, entry_perm, entry_sortable]
  | some a =>
    cases v2 with
    | none => simp [list_equals_run, entry_perm, entry_sortable]
    | some b =>
      rw [list_equals_run_some_some]
      by_cases hlen : a.length = b.length
      · by_cases hsa : sortable a = true
        · by_cases hsb : sortable b = true
          · rw [if_pos hlen, if_pos hsa, if_pos hsb]
            simp only [Option.some.injEq, decide_eq_true_eq]
            constructor
            · intro h
              exact ⟨(insertionSort_eq_iff_perm optle a b).1 h,
                by simpa [entry_sortable] using hsa,
                by simpa [entry_sortable] using hsb⟩
            · rintro ⟨hp, _, _⟩
              exact (insertionSort_eq_iff_perm optle a b).2 hp
          · rw [if_pos hlen, if_pos hsa, if_neg hsb]
            simp [entry_sortable, hsb]
        · rw [if_pos hlen, if_neg hsa]
          simp [entry_sortable, hsa]
      · rw [if_neg hlen]
        constructor
        · intro h
          simp at h
        · rintro ⟨hp, _, _⟩
          exact absurd (List.Perm.length_eq hp) hlen

/-- Unfolding equation of the run-model entry loop on a nonempty list. -/
theorem equals_entries_run_cons (d2 : ReqSet)
    (e : String × Option (List PyOpt))
    (rest : List (String × Option (List PyOpt))) :
    equals_entries_run d2 (e :: rest)
      = match d2.lookup e.1 with
        | none => none
        | some v2 =>
          match list_equals_run e.2 v2 with
          | none => none
          | some false => some false
          | some true => equals_entries_run d2 rest := rfl

/-- The run-model entry loop returns true exactly when every listed
entry looks up and compares to true. -/
theorem equals_entries_run_all (d2 : ReqSet)
    (l : List (String × Option (List PyOpt))) :
    equals_entries_run d2 l = some true ↔
      ∀ e ∈ l, ∃ v2, d2.lookup e.1 = some v2
        ∧ list_equals_run e.2 v2 = some true := by
  induction l with
  | nil => simp [equals_entries_run]
  | cons e rest ih =>
    rcases hl : d2.lookup e.1 with _ | v2
    · constructor
      · intro h
        simp only [equals_entries_run_cons, hl] at h
        cases h
      · intro h
        rcases h e (List.mem_cons_self e rest) with ⟨v2, hv2, _⟩
        rw [hl] at hv2
        cases hv2
    · rcases hr : list_equals_run e.2 v2 with _ | b
      · constructor
        · intro h
          simp only [equals_entries_run_cons, hl, hr] at h
          cases h
        · intro h
          rcases h e (List.mem_cons_self e rest) with ⟨v2b, hv2b, htr⟩
          rw [hl] at hv2b
          cases hv2b
          rw [hr] at htr
          cases htr
      · cases b with
        | false =>
          constructor
          · intro h
            simp only [equals_entries_run_cons, hl, hr] at h
            simp at h
          · intro h
            rcases h e (List.mem_cons_self e rest) with ⟨v2b, hv2b, htr⟩
            rw [hl] at hv2b
            cases hv2b
            rw [hr] at htr
            simp at htr
        | true =>
          simp only [equals_entries_run_cons, hl, hr]
          rw [ih]
          constructor
          · intro h e2 he2
            rcases List.mem_cons.1 he2 with rfl | hmem
            · exact ⟨v2, hl, hr⟩
            · exact h e2 hmem
          · intro h e2 he2
            exact h e2 (List.mem_cons_of_mem e he2)

/-- C6 counterexample: two requirement sets with the same key set whose
option collections are equal as duplicate-free unordered collections
(each is the set with the single element a) are nevertheless reported
unequal by the source, whose sorted-list comparison after a length
check is duplicate-count-sensitive multiset equality. -/
theorem equals_duplicate_counterexample :
    equals_run [("x", some [some "a", some "a"])] [("x", some [some "a"])]
        = some false
    ∧ (∀ k, k ∈ keysOf [("x", some [some "a", some "a"])]
        ↔ k ∈ keysOf [("x", some [some "a"])])
    ∧ (∀ y, y ∈ [some "a", some "a"] ↔ y ∈ ([some "a"] : List PyOpt)) := by
  refine ⟨by rfl, fun k => by simp [keysOf], fun y => by simp⟩

/-- C6 amended: on dicts with unique keys, the source equality returns
true exactly when the key sets agree and, for each key, the two option
collections agree as unordered multisets (order-insensitive but
duplicate-count-sensitive) with each compared collection one Python can
sort (at most one element, or no None), a None entry matching only
another None entry; on the remaining inputs it returns false or raises
a TypeError, never true. -/
theorem equals_run_true_iff (d1 d2 : ReqSet)
    (h1 : (keysOf d1).Nodup) (h2 : (keysOf d2).Nodup) :
    equals_run d1 d2 = some true ↔
      ((∀ k, k ∈ keysOf d1 ↔ k ∈ keysOf d2)
       ∧ ∀ k v1 v2, d1.lookup k = some v1 → d2.lookup k = some v2 →
           entry_perm v1 v2 ∧ entry_sortable v1 = true
             ∧ entry_sortable v2 = true) := by
  unfold equals_run
  by_cases hk : key_list_equals (keysOf d1) (keysOf d2) = true
  · rw [if_pos hk]
    have hperm := (key_list_equals_iff _ _).1 hk
    rw [equals_entries_run_all]
    constructor
    · intro hall
      refine ⟨fun k => hperm.mem_iff, ?_⟩
      intro k v1 v2 hv1 hv2
      have hmem := lookup_eq_some_mem d1 k v1 hv1
      rcases hall (k, v1) hmem with ⟨v2b, hv2b, htrue⟩
      rw [show ((k, v1) : String × Option (List PyOpt)).1 = k from rfl]
        at hv2b
      rw [hv2] at hv2b
      cases hv2b
      exact (list_equals_run_true_iff _ _).1 htrue
    · rintro ⟨hkeys, hrel⟩
      intro e he
      have hv1 := nodup_lookup_entry d1 h1 e he
      have hin2 : e.1 ∈ keysOf d2 :=
        (hkeys e.1).1 ((lookup_isSome_iff d1 e.1).1 (by rw [hv1]; rfl))
      have hsome2 := (lookup_isSome_iff d2 e.1).2 hin2
      rcases ho : d2.lookup e.1 with _ | v2
      · rw [ho] at hsome2
        cases hsome2
      · exact ⟨v2, rfl,
          (list_equals_run_true_iff _ _).2 (hrel e.1 e.2 v2 hv1 ho)⟩
  · rw [if_neg hk]
    constructor
    · intro h
      simp at h
    · rintro ⟨hkeys, _⟩
      refine absurd ?_ hk
      rw [key_list_equals_iff]
      exact (List.perm_ext_iff_of_nodup h1 h2).2 hkeys

/-- Witness for the C6 amended theorem at concrete dicts whose option
lists are sortable permuted copies. -/
theorem equals_run_true_iff_witness :
    (∀ k, k ∈ keysOf [("x", some [some "b", some "a"])]
      ↔ k ∈ keysOf [("x", some [some "a", some "b"])])
    ∧ ∀ k v1 v2,
        ([("x", some [some "b", some "a"])] : ReqSet).lookup k = some v1 →
        ([("x", some [some "a", some "b"])] : ReqSet).lookup k = some v2 →
        entry_perm v1 v2 ∧ entry_sortable v1 = true
          ∧ entry_sortable v2 = true :=
  (equals_run_true_iff [("x", some [some "b", some "a"])]
    [("x", some [some "a", some "b"])] (by decide) (by decide)).1 (by rfl)

end EqualityClaims

section CombineClaims

/-- Lookup in a key-value map built from a key list. -/
theorem lookup_map_pair {α : Type} (l : List String) (g : String → α)
    (k : String) :
    (l.map (fun t => (t, g t))).lookup k
      = if k ∈ l then some (g k) else none := by
  induction l with
  | nil => simp
  | cons x rest ih =>
    cases hbe : k == x with
    | true =>
      have hk : k = x := by simpa using hbe
      simp [List.lookup, hbe, hk]
    | false =>
      have hk : ¬ k = x := by simpa using hbe
      simp only [List.map_cons, List.lookup, hbe, List.mem_cons]
      rw [ih]
      by_cases hm : k ∈ rest <;> simp [hm, hk]

/-- Membership in the merged tool set: some truthy input dict holds the
key. -/
theorem mem_toolSet_iff (reqs : List (Option ReqSet)) (k : String) :
    k ∈ toolSet reqs ↔ ∃ d, some d ∈ reqs ∧ k ∈ keysOf d := by
  unfold toolSet
  rw [List.mem_dedup, List.mem_flatten]
  constructor
  · rintro ⟨l, hl, hk⟩
    rcases List.mem_map.1 hl with ⟨r, hr, rfl⟩
    rcases r with _ | d
    · simp [contributedKeys, truthyReq] at hk
    · by_cases hd : d.isEmpty
      · simp [contributedKeys, truthyReq, hd] at hk
      · rw [show contributedKeys (some d) = keysOf d by
          simp [contributedKeys, truthyReq, hd]] at hk
        exact ⟨d, hr, hk⟩
  · rintro ⟨d, hd, hk⟩
    refine ⟨contributedKeys (some d), List.mem_map_of_mem _ hd, ?_⟩
    have hdne : d.isEmpty = false := by
      cases d
      · cases hk
      · simp
    simp [contributedKeys, truthyReq, hdne, hk]

/-- Membership in the key list of a combined requirement dict. -/
theorem mem_keys_combine_iff (reqs : List (Option ReqSet)) (k : String) :
    k ∈ keysOf (combine_reqs reqs) ↔ ∃ d, some d ∈ reqs ∧ k ∈ keysOf d := by
  unfold combine_reqs
  by_cases h : reqs.isEmpty
  · have : reqs = [] := List.isEmpty_iff.1 h
    subst this
    simp [keysOf]
  · rw [if_neg (by simp [h]), keysOf_map_pair]
    exact mem_toolSet_iff reqs k

/-- Membership in the merged option union for one name. -/
theorem mem_unionOpts_iff (reqs : List (Option ReqSet)) (k : String)
    (x : PyOpt) : x ∈ unionOpts reqs k ↔ OptIn reqs k x := by
  unfold unionOpts
  rw [List.mem_dedup, List.mem_flatten]
  constructor
  · rintro ⟨l, hl, hx⟩
    rcases List.mem_map.1 hl with ⟨r, hr, rfl⟩
    rcases r with _ | d
    · simp [contributedOpts, truthyReq] at hx
    · by_cases hd : d.isEmpty
      · simp [contributedOpts, truthyReq, hd] at hx
      · rcases ho : d.lookup k with _ | o
        · simp [contributedOpts, truthyReq, hd, ho] at hx
        · rcases o with _ | opts
          · simp [contributedOpts, truthyReq, hd, ho] at hx
          · by_cases hoe : opts.isEmpty
            · simp [contributedOpts, truthyReq, hd, ho, hoe] at hx
            · rw [show contributedOpts k (some d) = opts by
                simp [contributedOpts, truthyReq, hd, ho, hoe]] at hx
              exact ⟨d, opts, hr, ho, hx⟩
  · rintro ⟨d, opts, hd, ho, hx⟩
    refine ⟨contributedOpts k (some d), List.mem_map_of_mem _ hd, ?_⟩
    have hdne : d.isEmpty = false := by
      cases d
      · cases ho
      · simp
    have hoe : opts.isEmpty = false := by
      cases opts
      · cases hx
      · simp
    simp [contributedOpts, truthyReq, hdne, ho, hoe, hx]

/-- The combined dict has unique keys. -/
theorem nodup_keys_combine (reqs : List (Option ReqSet)) :
    (keysOf (combine_reqs reqs)).Nodup := by
  unfold combine_reqs
  by_cases h : reqs.isEmpty
  · simp [h, keysOf]
  · rw [if_neg (by simp [h]), keysOf_map_pair]
    exact List.nodup_dedup _

/-- The merged option union has no duplicates. -/
theorem nodup_unionOpts (reqs : List (Option ReqSet)) (k : String) :
    (unionOpts reqs k).Nodup := List.nodup_dedup _

/-- Lookup of a present key in the combined dict yields its merged
entry. -/
theorem lookup_combine (reqs : List (Option ReqSet)) (k : String)
    (hk : k ∈ keysOf (combine_reqs reqs)) :
    (combine_reqs reqs).lookup k = some (combine_entry reqs k) := by
  unfold combine_reqs at hk ⊢
  by_cases h : reqs.isEmpty
  · rw [if_pos (by simp [h])] at hk
    cases hk
  · rw [if_neg (by simp [h])] at hk ⊢
    rw [keysOf_map_pair] at hk
    rw [lookup_map_pair, if_pos hk]

/-- C2: combine merges a list of requirement dicts: its key set is the
union of the keys of the inputs; each present key maps to None exactly
when no input specifies an option for it, and otherwise to a nonempty
list holding exactly the union of the specified options; the empty input
list yields the empty dict, not None and not a fault; and on the
three-dict instance of the claim, an entry without options does not
remove options already unioned. -/
theorem combine_reqs_spec :
    (∀ reqs k, k ∈ keysOf (combine_reqs reqs)
      ↔ ∃ d, some d ∈ reqs ∧ k ∈ keysOf d)
    ∧ (∀ reqs k, k ∈ keysOf (combine_reqs reqs) →
        ((combine_reqs reqs).lookup k = some none ∧ ∀ x, ¬ OptIn reqs k x)
        ∨ (∃ l, (combine_reqs reqs).lookup k = some (some l) ∧ l ≠ []
            ∧ ∀ x, (x ∈ l ↔ OptIn reqs k x)))
    ∧ combine_reqs [] = []
    ∧ equals
        (combine_reqs [some [("x", some [some "a", some "b"])],
          some [("x", some [some "a"])], some [("x", none)]])
        [("x", some [some "a", some "b"])] = true := by
  refine ⟨mem_keys_combine_iff, ?_, rfl, by rfl⟩
  intro reqs k hk
  rw [lookup_combine reqs k hk]
  unfold combine_entry
  by_cases he : (unionOpts reqs k).isEmpty
  · left
    rw [if_pos he]
    refine ⟨rfl, fun x hx => ?_⟩
    rw [← mem_unionOpts_iff] at hx
    rw [List.isEmpty_iff.1 he] at hx
    cases hx
  · right
    rw [if_neg he]
    refine ⟨unionOpts reqs k, rfl, by simpa [List.isEmpty_iff] using he,
      fun x => mem_unionOpts_iff reqs k x⟩

/-- Witness for the C2 theorem: the entry characterisation applied at a
concrete input list and key. -/
theorem combine_reqs_spec_witness :
    ((combine_reqs [some [("x", some [some "a"])], some [("x", none)]]).lookup "x"
        = some none
      ∧ ∀ x, ¬ OptIn [some [("x", some [some "a"])], some [("x", none)]] "x" x)
    ∨ (∃ l, (combine_reqs [some [("x", some [some "a"])], some [("x", none)]]).lookup "x"
        = some (some l) ∧ l ≠ []
      ∧ ∀ x, (x ∈ l
          ↔ OptIn [some [("x", some [some "a"])], some [("x", none)]] "x" x)) :=
  combine_reqs_spec.2.1 [some [("x", some [some "a"])], some [("x", none)]] "x"
    (by rw [mem_keys_combine_iff]
        exact ⟨[("x", some [some "a"])], by simp, by simp [keysOf]⟩)

/-- Entries built over option unions with the same members are related
by entry_perm. -/
theorem combine_entry_perm_of_mem_iff (r1 r2 : List (Option ReqSet))
    (k : String) (h : ∀ x, x ∈ unionOpts r1 k ↔ x ∈ unionOpts r2 k) :
    entry_perm (combine_entry r1 k) (combine_entry r2 k) := by
  unfold combine_entry
  by_cases he : (unionOpts r1 k).isEmpty = true
  · have he2 : (unionOpts r2 k).isEmpty = true := by
      rw [List.isEmpty_iff, List.eq_nil_iff_forall_not_mem]
      intro x hx
      rw [← h] at hx
      rw [List.isEmpty_iff.1 he] at hx
      cases hx
    rw [if_pos he, if_pos he2]
    trivial
  · have he2 : ¬ (unionOpts r2 k).isEmpty = true := by
      intro h2
      refine he ?_
      rw [List.isEmpty_iff, List.eq_nil_iff_forall_not_mem]
      intro x hx
      rw [h] at hx
      rw [List.isEmpty_iff.1 h2] at hx
      cases hx
    rw [if_neg he, if_neg he2]
    exact (List.perm_ext_iff_of_nodup (nodup_unionOpts r1 k)
      (nodup_unionOpts r2 k)).2 h

/-- Two combine results whose key sets and option unions have the same
members are equal under equals. -/
theorem equals_combine_of_same_members (r1 r2 : List (Option ReqSet))
    (hkeys : ∀ k, k ∈ keysOf (combine_reqs r1) ↔ k ∈ keysOf (combine_reqs r2))
    (hopts : ∀ k x, x ∈ unionOpts r1 k ↔ x ∈ unionOpts r2 k) :
    equals (combine_reqs r1) (combine_reqs r2) = true := by
  rw [equals_iff_entry_perm _ _ (nodup_keys_combine r1) (nodup_keys_combine r2)]
  refine ⟨hkeys, ?_⟩
  intro k v1 v2 h1 h2
  have hk1 : k ∈ keysOf (combine_reqs r1) :=
    (lookup_isSome_iff _ _).1 (by rw [h1]; rfl)
  have hk2 : k ∈ keysOf (combine_reqs r2) :=
    (lookup_isSome_iff _ _).1 (by rw [h2]; rfl)
  rw [lookup_combine r1 k hk1] at h1
  rw [lookup_combine r2 k hk2] at h2
  cases h1
  cases h2
  exact combine_entry_perm_of_mem_iff r1 r2 k (hopts k)

/-- Permuted inputs combine to equal results. -/
theorem combine_perm_equals (r1 r2 : List (Option ReqSet))
    (hp : List.Perm r1 r2) :
    equals (combine_reqs r1) (combine_reqs r2) = true := by
  apply equals_combine_of_same_members
  · intro k
    rw [mem_keys_combine_iff, mem_keys_combine_iff]
    constructor <;> rintro ⟨d, hd, hk⟩
    · exact ⟨d, hp.mem_iff.1 hd, hk⟩
    · exact ⟨d, hp.mem_iff.2 hd, hk⟩
  · intro k x
    rw [mem_unionOpts_iff, mem_unionOpts_iff]
    constructor <;> rintro ⟨d, opts, hd, ho, hx⟩
    · exact ⟨d, opts, hp.mem_iff.1 hd, ho, hx⟩
    · exact ⟨d, opts, hp.mem_iff.2 hd, ho, hx⟩

/-- Contribution to a flattened input list is contribution to a group. -/
theorem optIn_flatten_iff (xss : List (List (Option ReqSet))) (k : String)
    (x : PyOpt) :
    OptIn xss.flatten k x ↔ ∃ xs ∈ xss, OptIn xs k x := by
  unfold OptIn
  constructor
  · rintro ⟨d, opts, hd, ho, hx⟩
    rcases List.mem_flatten.1 hd with ⟨xs, hxs, hdx⟩
    exact ⟨xs, hxs, d, opts, hdx, ho, hx⟩
  · rintro ⟨xs, hxs, d, opts, hd, ho, hx⟩
    exact ⟨d, opts, List.mem_flatten.2 ⟨xs, hxs, hd⟩, ho, hx⟩

/-- Contribution to a list of inner combine results is contribution to a
group. -/
theorem optIn_map_combine_iff (xss : List (List (Option ReqSet)))
    (k : String) (x : PyOpt) :
    OptIn (xss.map (fun xs => some (combine_reqs xs))) k x
      ↔ ∃ xs ∈ xss, OptIn xs k x := by
  constructor
  · rintro ⟨d, opts, hd, ho, hx⟩
    rcases List.mem_map.1 hd with ⟨xs, hxs, heq⟩
    injection heq with heq
    subst heq
    have hk : k ∈ keysOf (combine_reqs xs) :=
      (lookup_isSome_iff _ _).1 (by rw [ho]; rfl)
    rw [lookup_combine xs k hk] at ho
    by_cases he : (unionOpts xs k).isEmpty = true
    · rw [combine_entry, if_pos he] at ho
      cases ho
    · rw [combine_entry, if_neg he] at ho
      injection ho with ho
      injection ho with ho
      exact ⟨xs, hxs, (mem_unionOpts_iff xs k x).1 (ho ▸ hx)⟩
  · rintro ⟨xs, hxs, hopt⟩
    have hx2 : x ∈ unionOpts xs k := (mem_unionOpts_iff xs k x).2 hopt
    have hne : ¬ (unionOpts xs k).isEmpty = true := by
      intro h
      rw [List.isEmpty_iff.1 h] at hx2
      cases hx2
    have hk : k ∈ keysOf (combine_reqs xs) := by
      rw [mem_keys_combine_iff]
      rcases hopt with ⟨d, opts, hd, ho, hxo⟩
      exact ⟨d, hd, (lookup_isSome_iff d k).1 (by rw [ho]; rfl)⟩
    refine ⟨combine_reqs xs, unionOpts xs k,
      List.mem_map_of_mem _ hxs, ?_, hx2⟩
    rw [lookup_combine xs k hk, combine_entry, if_neg hne]

/-- Regrouping: combining the groupwise combine results equals combining
the flattened sequence. -/
theorem combine_flatten_equals (xss : List (List (Option ReqSet))) :
    equals (combine_reqs (xss.map (fun xs => some (combine_reqs xs))))
      (combine_reqs xss.flatten) = true := by
  apply equals_combine_of_same_members
  · intro k
    rw [mem_keys_combine_iff, mem_keys_combine_iff]
    constructor
    · rintro ⟨d, hd, hk⟩
      rcases List.mem_map.1 hd with ⟨xs, hxs, heq⟩
      injection heq with heq
      subst heq
      rcases (mem_keys_combine_iff xs k).1 hk with ⟨d2, hd2, hk2⟩
      exact ⟨d2, List.mem_flatten.2 ⟨xs, hxs, hd2⟩, hk2⟩
    · rintro ⟨d, hd, hk⟩
      rcases List.mem_flatten.1 hd with ⟨xs, hxs, hdx⟩
      refine ⟨combine_reqs xs, List.mem_map_of_mem _ hxs, ?_⟩
      rw [mem_keys_combine_iff]
      exact ⟨d, hdx, hk⟩
  · intro k x
    rw [mem_unionOpts_iff, mem_unionOpts_iff, optIn_flatten_iff,
      optIn_map_combine_iff]

/-- C5: combine is commutative and associative over its input list under
the requirement-set equality relation: permuted inputs give equal
results, and regrouping the inputs into nested combine calls (combining
each group, then combining the group results) gives a result equal to
combining the flattened sequence. -/
theorem combine_comm_assoc :
    (∀ r1 r2 : List (Option ReqSet), List.Perm r1 r2 →
      equals (combine_reqs r1) (combine_reqs r2) = true)
    ∧ ∀ xss : List (List (Option ReqSet)),
      equals (combine_reqs (xss.map (fun xs => some (combine_reqs xs))))
        (combine_reqs xss.flatten) = true :=
  ⟨combine_perm_equals, combine_flatten_equals⟩

/-- Witness for the C5 theorem: the permutation part applied at a
concrete two-element input list and its swap. -/
theorem combine_comm_assoc_witness :
    equals
      (combine_reqs [some [("x", some [some "a"])], some [("y", none)]])
      (combine_reqs [some [("y", none)], some [("x", some [some "a"])]])
      = true :=
  combine_comm_assoc.1
    [some [("x", some [some "a"])], some [("y", none)]]
    [some [("y", none)], some [("x", some [some "a"])]]
    (List.Perm.swap _ _ _)

end CombineClaims

section EngageClaims

/-- Reading back the station just written. -/
theorem wsAt_setWS_self (st : State) (i : Nat) (w : WS) (h : i < st.length) :
    wsAt (setWS st i w) i = w := by
  simp [wsAt, setWS, List.getD, List.getElem?_set_self, h]

/-- Writing one station leaves the others unchanged. -/
theorem wsAt_setWS_ne (st : State) (i : Nat) (w : WS) (j : Nat) (h : j ≠ i) :
    wsAt (setWS st i w) j = wsAt st j := by
  simp [wsAt, setWS, List.getD, List.getElem?_set_ne (Ne.symm h)]

/-- Writing outside the station list does nothing. -/
theorem setWS_oor (st : State) (i : Nat) (w : WS) (h : ¬ i < st.length) :
    setWS st i w = st := List.set_eq_of_length_le (by omega)

/-- Reading outside the station list yields the default station. -/
theorem wsAt_oor (st : State) (i : Nat) (h : ¬ i < st.length) :
    wsAt st i = defaultWS := by
  simp [wsAt, List.getD, List.getElem?_eq_none (by omega : st.length ≤ i)]

/-- Writing a station preserves the station count. -/
theorem length_setWS (st : State) (i : Nat) (w : WS) :
    (setWS st i w).length = st.length := List.length_set st i w

/-- The two possible successful outcomes of engage, described through
the written station and equations on its fields. -/
theorem engage_ok_destruct (st : State) (i : Nat) (st1 : State)
    (h : WorkStation.engage st i = .ok st1) :
    ∃ w1, st1 = setWS st i w1
      ∧ w1.tools = (wsAt st i).tools
      ∧ w1.suppliers = (wsAt st i).suppliers
      ∧ w1.managers = (wsAt st i).managers
      ∧ (((wsAt st i).tools.isEmpty = true
          ∧ w1.requirements = WorkStation.gather_manager_requirements st i
          ∧ w1.resources = (wsAt st i).resources)
        ∨ (∃ pairs, (wsAt st i).tools.isEmpty = false
            ∧ WorkStation.instantiation_pairs
                (WorkStation.gather_manager_requirements st i)
                (wsAt st i).tools = .ok pairs
            ∧ w1.resources = pairs.foldl (fun acc p => dictSet acc p.1 p.2)
                (wsAt st i).resources
            ∧ w1.requirements =
                WorkStation.cleanup_reqs st (wsAt st i).suppliers
                  (combine_reqs (pairs.map (fun p => Tool.get_requirements p.2))))) := by
  unfold WorkStation.engage at h
  by_cases ht : (wsAt st i).tools.isEmpty = true
  · rw [if_pos ht] at h
    cases h
    exact ⟨_, rfl, rfl, rfl, rfl, Or.inl ⟨ht, rfl, rfl⟩⟩
  · rw [if_neg ht] at h
    rcases hp : WorkStation.instantiation_pairs
        (WorkStation.gather_manager_requirements st i) (wsAt st i).tools
        with e | pairs <;> rw [hp] at h
    · cases h
    · cases h
      exact ⟨_, rfl, rfl, rfl, rfl, Or.inr ⟨pairs, by simpa using ht, rfl, rfl, rfl⟩⟩

/-- Engage rewires only the engaged station, and only its requirement
and resource fields: registries and graph edges are untouched
everywhere. -/
theorem engage_preserves_static (st : State) (i : Nat) (st1 : State)
    (h : WorkStation.engage st i = .ok st1) (j : Nat) :
    (wsAt st1 j).tools = (wsAt st j).tools
    ∧ (wsAt st1 j).suppliers = (wsAt st j).suppliers
    ∧ (wsAt st1 j).managers = (wsAt st j).managers := by
  rcases engage_ok_destruct st i st1 h with ⟨w1, rfl, hw1, hw2, hw3, _⟩
  by_cases hj : j = i
  · subst hj
    by_cases hrange : j < st.length
    · rw [wsAt_setWS_self st j w1 hrange]
      exact ⟨hw1, hw2, hw3⟩
    · rw [setWS_oor st j w1 hrange]
      exact ⟨rfl, rfl, rfl⟩
  · rw [wsAt_setWS_ne st i w1 j hj]
    exact ⟨rfl, rfl, rfl⟩

/-- A map that fixes first components preserves the key list. -/
theorem keysOf_map_fst_preserving
    (f : (String × Option (List PyOpt)) → (String × Option (List PyOpt)))
    (hf : ∀ e, (f e).1 = e.1) (X : ReqSet) : keysOf (X.map f) = keysOf X := by
  induction X with
  | nil => rfl
  | cons e rest ih =>
    simp only [keysOf, List.map_cons] at ih ⊢
    rw [hf e, ih]

/-- The cleanup pass keeps the key list. -/
theorem keysOf_cleanup (st : State) (sup : List Nat) (X : ReqSet) :
    keysOf (WorkStation.cleanup_reqs st sup X) = keysOf X := by
  unfold WorkStation.cleanup_reqs
  apply keysOf_map_fst_preserving
  intro e
  by_cases h : (!sup.isEmpty
      && (match e.2 with | some l => !l.isEmpty | none => false)
      && WorkStation.strippedBySupplier st sup e.1) = true
  · rw [if_pos h]
  · rw [if_neg h]

/-- List.any only looks at members. -/
theorem any_congr_mem {α : Type} (l : List α) (f g : α → Bool)
    (h : ∀ x ∈ l, f x = g x) : l.any f = l.any g := by
  induction l with
  | nil => rfl
  | cons x rest ih => simp_all

/-- Cleanup reads only the supplier registries, so two states agreeing
on them clean identically. -/
theorem cleanup_congr (st1 st2 : State) (sup : List Nat) (X : ReqSet)
    (h : ∀ s ∈ sup, (wsAt st1 s).tools = (wsAt st2 s).tools) :
    WorkStation.cleanup_reqs st1 sup X = WorkStation.cleanup_reqs st2 sup X := by
  unfold WorkStation.cleanup_reqs
  apply List.map_congr_left
  intro e _
  have hs : WorkStation.strippedBySupplier st1 sup e.1
      = WorkStation.strippedBySupplier st2 sup e.1 := by
    unfold WorkStation.strippedBySupplier
    apply any_congr_mem
    intro s hsm
    rw [h s hsm]
  rw [hs]

/-- equals is reflexive on genuine dicts. -/
theorem equals_refl_of_nodup (d : ReqSet) (h : (keysOf d).Nodup) :
    equals d d = true := by
  rw [equals_iff_entry_perm d d h h]
  refine ⟨fun k => Iff.rfl, ?_⟩
  intro k v1 v2 h1 h2
  rw [h1] at h2
  cases h2
  cases v1
  · trivial
  · exact List.Perm.refl _

/-- The gathered manager requirements form a genuine dict. -/
theorem nodup_keys_gather (st : State) (i : Nat) :
    (keysOf (WorkStation.gather_manager_requirements st i)).Nodup := by
  unfold WorkStation.gather_manager_requirements
  exact nodup_keys_combine _

/-- Assigning a present key keeps the key list. -/
theorem keysOf_dictSet_of_mem {α : Type} (d : List (String × α)) (k : String)
    (v : α) (h : k ∈ keysOf d) : keysOf (dictSet d k v) = keysOf d := by
  induction d with
  | nil => cases h
  | cons e rest ih =>
    by_cases he : e.1 = k
    · simp [dictSet, he, keysOf]
    · rcases List.mem_cons.1 h with hk | hk
      · exact absurd hk.symm he
      · simp only [dictSet, if_neg he, keysOf, List.map_cons]
        rw [show List.map Prod.fst (dictSet rest k v) = List.map Prod.fst rest
          from ih hk]

/-- Membership in keys survives an assignment. -/
theorem mem_keysOf_dictSet_of_mem {α : Type} (d : List (String × α))
    (k : String) (v : α) (k2 : String) (h : k2 ∈ keysOf d) :
    k2 ∈ keysOf (dictSet d k v) := by
  induction d with
  | nil => cases h
  | cons e rest ih =>
    by_cases he : e.1 = k
    · simp only [dictSet, if_pos he, keysOf, List.map_cons, List.mem_cons]
      rcases List.mem_cons.1 h with hk | hk
      · exact Or.inl (by rw [hk, he])
      · exact Or.inr hk
    · simp only [dictSet, if_neg he, keysOf, List.map_cons, List.mem_cons]
      rcases List.mem_cons.1 h with hk | hk
      · exact Or.inl hk
      · exact Or.inr (ih hk)

/-- The assigned key is among the keys afterwards. -/
theorem mem_keysOf_dictSet_self {α : Type} (d : List (String × α))
    (k : String) (v : α) : k ∈ keysOf (dictSet d k v) := by
  induction d with
  | nil => simp [dictSet, keysOf]
  | cons e rest ih =>
    by_cases he : e.1 = k
    · simp [dictSet, if_pos he, keysOf]
    · simp only [dictSet, if_neg he, keysOf, List.map_cons, List.mem_cons]
      exact Or.inr ih

/-- Folding assignments only ever grows the key set. -/
theorem mem_keysOf_foldl_of_mem {α : Type} (ps : List (String × α))
    (d : List (String × α)) (k : String) (h : k ∈ keysOf d) :
    k ∈ keysOf (ps.foldl (fun acc p => dictSet acc p.1 p.2) d) := by
  induction ps generalizing d with
  | nil => exact h
  | cons p rest ih =>
    exact ih (dictSet d p.1 p.2) (mem_keysOf_dictSet_of_mem d p.1 p.2 k h)

/-- Every assigned key is among the keys after the fold. -/
theorem mem_keysOf_foldl_pairs {α : Type} (ps : List (String × α))
    (d : List (String × α)) (p : String × α) (hp : p ∈ ps) :
    p.1 ∈ keysOf (ps.foldl (fun acc q => dictSet acc q.1 q.2) d) := by
  induction ps generalizing d with
  | nil => cases hp
  | cons q rest ih =>
    rcases List.mem_cons.1 hp with rfl | hmem
    · exact mem_keysOf_foldl_of_mem rest (dictSet d p.1 p.2) p.1
        (mem_keysOf_dictSet_self d p.1 p.2)
    · exact ih (dictSet d q.1 q.2) hmem

/-- Folding assignments of already-present keys keeps the key list. -/
theorem keysOf_foldl_dictSet_of_mem {α : Type} (ps : List (String × α))
    (d : List (String × α)) (h : ∀ p ∈ ps, p.1 ∈ keysOf d) :
    keysOf (ps.foldl (fun acc p => dictSet acc p.1 p.2) d) = keysOf d := by
  induction ps generalizing d with
  | nil => rfl
  | cons p rest ih =>
    have hp : p.1 ∈ keysOf d := h p (List.mem_cons_self p rest)
    have hkeep : keysOf (dictSet d p.1 p.2) = keysOf d :=
      keysOf_dictSet_of_mem d p.1 p.2 hp
    rw [List.foldl_cons, ih (dictSet d p.1 p.2)
      (fun q hq => hkeep ▸ h q (List.mem_cons_of_mem p hq)), hkeep]

/-- C9: engage is idempotent.  If a station engages twice and the
gathered manager requirements did not change in between, the second run
leaves a requirement set equal (under the requirement-set equality
relation) to the one after the first run, and an identical key list in
the resource map of instantiated capabilities. -/
theorem engage_idempotent (st st1 st2 : State) (i : Nat)
    (h1 : WorkStation.engage st i = .ok st1)
    (h2 : WorkStation.engage st1 i = .ok st2)
    (hm : WorkStation.gather_manager_requirements st1 i
        = WorkStation.gather_manager_requirements st i) :
    equals (wsAt st2 i).requirements (wsAt st1 i).requirements = true
    ∧ keysOf (wsAt st2 i).resources = keysOf (wsAt st1 i).resources := by
  have hstatic := engage_preserves_static st i st1 h1
  rcases engage_ok_destruct st i st1 h1 with ⟨w1, hst1, hw1t, hw1s, hw1m, hcase1⟩
  by_cases hr : i < st.length
  · have hws1 : wsAt st1 i = w1 := by
      rw [hst1]; exact wsAt_setWS_self st i w1 hr
    have hr1 : i < st1.length := by
      rw [hst1, length_setWS]; exact hr
    rcases engage_ok_destruct st1 i st2 h2 with ⟨w2, hst2, hw2t, hw2s, hw2m, hcase2⟩
    have hws2 : wsAt st2 i = w2 := by
      rw [hst2]; exact wsAt_setWS_self st1 i w2 hr1
    rw [hws2, hws1]
    rcases hcase1 with ⟨ht, hreq1, hres1⟩ | ⟨pairs, ht, hp, hres1, hreq1⟩
    · rcases hcase2 with ⟨ht2, hreq2, hres2⟩ | ⟨pairs2, ht2, hp2, hres2, hreq2⟩
      · constructor
        · rw [hreq2, hreq1, hm]
          exact equals_refl_of_nodup _ (nodup_keys_gather st i)
        · rw [hres2, hws1, hres1]
      · rw [hws1, hw1t, ht] at ht2
        cases ht2
    · rcases hcase2 with ⟨ht2, hreq2, hres2⟩ | ⟨pairs2, ht2, hp2, hres2, hreq2⟩
      · rw [hws1, hw1t, ht] at ht2
        cases ht2
      · rw [hm, hws1, hw1t, hp] at hp2
        cases hp2
        constructor
        · rw [hreq2, hreq1, hws1, hw1s]
          rw [show WorkStation.cleanup_reqs st1 (wsAt st i).suppliers
              (combine_reqs (pairs.map (fun p => Tool.get_requirements p.2)))
              = WorkStation.cleanup_reqs st (wsAt st i).suppliers
                (combine_reqs (pairs.map (fun p => Tool.get_requirements p.2)))
            from cleanup_congr st1 st _ _ (fun s _ => (hstatic s).1)]
          apply equals_refl_of_nodup
          rw [keysOf_cleanup]
          exact nodup_keys_combine _
        · rw [hres2, hws1, hres1]
          apply keysOf_foldl_dictSet_of_mem
          intro p hpm
          exact mem_keysOf_foldl_pairs pairs (wsAt st i).resources p hpm
  · have hst1eq : st1 = st := hst1.trans (setWS_oor st i w1 hr)
    have hok : WorkStation.engage st i = .ok st := hst1eq ▸ h1
    have hst2eq : st2 = st := by
      rw [hst1eq, hok] at h2
      exact (Except.ok.inj h2).symm
    rw [hst1eq, hst2eq, wsAt_oor st i hr]
    exact ⟨by rfl, rfl⟩

/-- Witness for the C9 theorem: a single pass-through station engaged
twice. -/
theorem engage_idempotent_witness :
    equals (wsAt [defaultWS] 0).requirements (wsAt [defaultWS] 0).requirements
        = true
    ∧ keysOf (wsAt [defaultWS] 0).resources
        = keysOf (wsAt [defaultWS] 0).resources :=
  engage_idempotent [defaultWS] [defaultWS] [defaultWS] 0 rfl rfl rfl

end EngageClaims

section GraphClaims

/-- Reachability extends along a further supplier edge. -/
theorem Reaches.snoc {st : State} {q v s : Nat} (h : Reaches st q v)
    (hs : s ∈ suppliersOf st v) : Reaches st q s := by
  induction h with
  | refl _ => exact Reaches.step hs (Reaches.refl s)
  | step hedge _ ih => exact Reaches.step hedge (ih hs)

/-- Unfolding equation of cgo on the empty list. -/
theorem cgo_eq_nil
    (f : Nat → Finset Nat → Finset Nat → Option Nat × Finset Nat × Finset Nat)
    (p vv : Finset Nat) : cgo f [] p vv = (none, p, vv) := rfl

/-- Unfolding equation of cgo on a nonempty list. -/
theorem cgo_eq_cons
    (f : Nat → Finset Nat → Finset Nat → Option Nat × Finset Nat × Finset Nat)
    (s : Nat) (rest : List Nat) (p vv : Finset Nat) :
    cgo f (s :: rest) p vv
      = if s ∈ p then (some s, p, vv)
        else
          match f s p vv with
          | (some _, p2, v2) => (some s, p2, v2)
          | (none, p2, v2) => cgo f rest p2 v2 := rfl

/-- Unfolding equation of cvisit with fuel left. -/
theorem cvisit_eq_succ (st : State) (fuel v : Nat) (p vv : Finset Nat) :
    cvisit st (fuel + 1) v p vv
      = if v ∈ vv then (none, p, vv)
        else
          match cgo (fun s p2 vv2 => cvisit st fuel s p2 vv2)
              (suppliersOf st v) (insert v p) (insert v vv) with
          | (none, p2, vis) => (none, p2.erase v, vis)
          | r => r := rfl

/-- Soundness of the is_cyclic loop body: under a path whose members all
reach the current vertex, a reported vertex is one of the listed
suppliers and witnesses a cycle; a silent run restores the path. -/
theorem cgo_sound (st : State) (v : Nat)
    (f : Nat → Finset Nat → Finset Nat → Option Nat × Finset Nat × Finset Nat)
    (hf : ∀ s p2 vv2, s ∉ p2 → (∀ q ∈ p2, Reaches st q s) →
        ((∀ w, (f s p2 vv2).1 = some w → HasCycle st)
         ∧ ((f s p2 vv2).1 = none → (f s p2 vv2).2.1 = p2))) :
    ∀ (l : List Nat) (p vv : Finset Nat),
      (∀ s ∈ l, s ∈ suppliersOf st v) →
      (∀ q ∈ p, Reaches st q v) →
      ((∀ w, (cgo f l p vv).1 = some w → w ∈ suppliersOf st v ∧ HasCycle st)
       ∧ ((cgo f l p vv).1 = none → (cgo f l p vv).2.1 = p)) := by
  intro l
  induction l with
  | nil =>
    intro p vv _ _
    constructor
    · intro w hw
      rw [cgo_eq_nil] at hw
      cases hw
    · intro _
      rw [cgo_eq_nil]
  | cons s rest ih =>
    intro p vv hl hp
    have hsm : s ∈ suppliersOf st v := hl s (List.mem_cons_self s rest)
    by_cases hs : s ∈ p
    · constructor
      · intro w hw
        rw [cgo_eq_cons, if_pos hs] at hw
        cases hw
        exact ⟨hsm, v, s, hsm, hp s hs⟩
      · intro hw
        rw [cgo_eq_cons, if_pos hs] at hw
        cases hw
    · have hreach : ∀ q ∈ p, Reaches st q s := fun q hq => (hp q hq).snoc hsm
      have hfs := hf s p vv hs hreach
      rcases hres : f s p vv with ⟨o, rp, rv⟩
      cases o with
      | some w0 =>
        constructor
        · intro w hw
          rw [cgo_eq_cons, if_neg hs, hres] at hw
          cases hw
          exact ⟨hsm, hfs.1 w0 (by rw [hres])⟩
        · intro hw
          rw [cgo_eq_cons, if_neg hs, hres] at hw
          cases hw
      | none =>
        have hrp : rp = p := by
          have h2 := hfs.2 (by rw [hres])
          rw [hres] at h2
          exact h2
        subst hrp
        have hrec := ih rp rv (fun q hq => hl q (List.mem_cons_of_mem s hq)) hp
        constructor
        · intro w hw
          rw [cgo_eq_cons, if_neg hs, hres] at hw
          exact hrec.1 w hw
        · intro hw
          rw [cgo_eq_cons, if_neg hs, hres] at hw ⊢
          exact hrec.2 hw

/-- Soundness of the is_cyclic visit: a reported vertex is a direct
supplier of the visited vertex and witnesses a cycle; a silent visit
restores the path. -/
theorem cvisit_sound (st : State) : ∀ (fuel v : Nat) (p vv : Finset Nat),
    v ∉ p → (∀ q ∈ p, Reaches st q v) →
    ((∀ w, (cvisit st fuel v p vv).1 = some w →
        w ∈ suppliersOf st v ∧ HasCycle st)
     ∧ ((cvisit st fuel v p vv).1 = none →
        (cvisit st fuel v p vv).2.1 = p)) := by
  intro fuel
  induction fuel with
  | zero =>
    intro v p vv _ _
    constructor
    · intro w hw
      cases hw
    · intro _
      rfl
  | succ fuel ih =>
    intro v p vv hvp hp
    by_cases hv : v ∈ vv
    · constructor
      · intro w hw
        rw [cvisit_eq_succ, if_pos hv] at hw
        cases hw
      · intro _
        rw [cvisit_eq_succ, if_pos hv]
    · have hf : ∀ s p2 vv2, s ∉ p2 → (∀ q ∈ p2, Reaches st q s) →
          ((∀ w, (cvisit st fuel s p2 vv2).1 = some w → HasCycle st)
           ∧ ((cvisit st fuel s p2 vv2).1 = none →
              (cvisit st fuel s p2 vv2).2.1 = p2)) :=
        fun s p2 vv2 hs hq =>
          ⟨fun w hw => ((ih s p2 vv2 hs hq).1 w hw).2, (ih s p2 vv2 hs hq).2⟩
      have hinv : ∀ q ∈ insert v p, Reaches st q v := by
        intro q hq
        rcases Finset.mem_insert.1 hq with rfl | hq2
        · exact Reaches.refl q
        · exact hp q hq2
      have hcgo := cgo_sound st v (fun s p2 vv2 => cvisit st fuel s p2 vv2) hf
        (suppliersOf st v) (insert v p) (insert v vv) (fun s hsm => hsm) hinv
      rcases hres : cgo (fun s p2 vv2 => cvisit st fuel s p2 vv2)
          (suppliersOf st v) (insert v p) (insert v vv) with ⟨o, rp, rv⟩
      cases o with
      | some w0 =>
        constructor
        · intro w hw
          rw [cvisit_eq_succ, if_neg hv, hres] at hw
          cases hw
          exact hcgo.1 w0 (by rw [hres])
        · intro hw
          rw [cvisit_eq_succ, if_neg hv, hres] at hw
          cases hw
      | none =>
        have hrp : rp = insert v p := by
          have h2 := hcgo.2 (by rw [hres])
          rw [hres] at h2
          exact h2
        constructor
        · intro w hw
          rw [cvisit_eq_succ, if_neg hv, hres] at hw
          cases hw
        · intro _
          rw [cvisit_eq_succ, if_neg hv, hres]
          show rp.erase v = p
          rw [hrp]
          exact Finset.erase_insert hvp

/-- Soundness of is_cyclic: a reported vertex is a direct supplier of
the start vertex, on a graph that does contain a cycle. -/
theorem is_cyclic_sound (st : State) (start w : Nat)
    (h : is_cyclic st start = some w) :
    w ∈ suppliersOf st start ∧ HasCycle st := by
  unfold is_cyclic at h
  exact (cvisit_sound st (st.length + 2) start ∅ ∅ (Finset.not_mem_empty start)
    (fun q hq => absurd hq (Finset.not_mem_empty q))).1 w h

/-- A vertex none of whose suppliers can reach a cycle cannot reach one
either: the first hop of any reaching path, or the back edge itself when
the cycle sits at the vertex, passes through a supplier. -/
theorem not_cycleFrom_of_suppliers (st : State) (v : Nat)
    (h : ∀ s ∈ suppliersOf st v, ¬ CycleFrom st s) : ¬ CycleFrom st v := by
  rintro ⟨c, t, hreach, ht, htc⟩
  cases hreach with
  | refl => exact h t ht ⟨_, t, htc, ht, htc⟩
  | step hedge hrest => exact h _ hedge ⟨c, t, hrest, ht, htc⟩

/-- Completeness of the is_cyclic loop body: when every nested visit
that runs silently restores the path, grows the visited set over a base,
marks its vertex and preserves the black invariant, a silent loop pass
does the same for every listed supplier. -/
theorem cgo_complete (st : State) (P B : Finset Nat)
    (f : Nat → Finset Nat → Finset Nat → Option Nat × Finset Nat × Finset Nat)
    (hf : ∀ s vv2, B ⊆ vv2 → s ∉ P → BlackInv st P vv2 →
        (f s P vv2).1 = none →
        ((f s P vv2).2.1 = P ∧ vv2 ⊆ (f s P vv2).2.2
         ∧ s ∈ (f s P vv2).2.2 ∧ BlackInv st P (f s P vv2).2.2)) :
    ∀ (l : List Nat) (vv : Finset Nat), B ⊆ vv → BlackInv st P vv →
      (cgo f l P vv).1 = none →
      ((cgo f l P vv).2.1 = P ∧ vv ⊆ (cgo f l P vv).2.2
       ∧ (∀ s ∈ l, s ∈ (cgo f l P vv).2.2 ∧ s ∉ P)
       ∧ BlackInv st P (cgo f l P vv).2.2) := by
  intro l
  induction l with
  | nil =>
    intro vv hB hinv hnone
    rw [cgo_eq_nil]
    exact ⟨rfl, Finset.Subset.refl vv,
      fun s hs => absurd hs (List.not_mem_nil s), hinv⟩
  | cons s rest ih =>
    intro vv hB hinv hnone
    by_cases hs : s ∈ P
    · rw [cgo_eq_cons, if_pos hs] at hnone
      cases hnone
    · rcases hres : f s P vv with ⟨o, rp, rv⟩
      cases o with
      | some w0 =>
        rw [cgo_eq_cons, if_neg hs, hres] at hnone
        cases hnone
      | none =>
        have hfs := hf s vv hB hs hinv (by rw [hres])
        rw [hres] at hfs
        have hrp : rp = P := hfs.1
        have hsubset : vv ⊆ rv := hfs.2.1
        have hsmem : s ∈ rv := hfs.2.2.1
        have hinv2 : BlackInv st P rv := hfs.2.2.2
        have hstep : cgo f (s :: rest) P vv = cgo f rest P rv := by
          rw [cgo_eq_cons, if_neg hs, hres]
          show cgo f rest rp rv = cgo f rest P rv
          rw [hrp]
        rw [hstep] at hnone ⊢
        obtain ⟨h1, h2, h3, h4⟩ := ih rv (hB.trans hsubset) hinv2 hnone
        refine ⟨h1, hsubset.trans h2, ?_, h4⟩
        intro s2 hs2
        rcases List.mem_cons.1 hs2 with rfl | hmem
        · exact ⟨h2 hsmem, hs⟩
        · exact h3 s2 hmem

/-- Completeness of the is_cyclic visit: a silent visit with enough fuel
restores the path, extends the visited set, marks its vertex and keeps
the black invariant, so every vertex it blackens has no reachable
cycle. -/
theorem cvisit_complete (st : State) : ∀ (fuel v : Nat) (p vv : Finset Nat),
    (Finset.range st.length \ vv).card + 1 ≤ fuel →
    v ∉ p → BlackInv st p vv →
    (cvisit st fuel v p vv).1 = none →
    ((cvisit st fuel v p vv).2.1 = p ∧ vv ⊆ (cvisit st fuel v p vv).2.2
     ∧ v ∈ (cvisit st fuel v p vv).2.2
     ∧ BlackInv st p (cvisit st fuel v p vv).2.2) := by
  intro fuel
  induction fuel with
  | zero =>
    intro v p vv hfuel _ _ _
    exact absurd hfuel (Nat.not_succ_le_zero _)
  | succ fuel ih =>
    intro v p vv hfuel hvp hinv hnone
    by_cases hv : v ∈ vv
    · have hstep : cvisit st (fuel + 1) v p vv = (none, p, vv) := by
        rw [cvisit_eq_succ, if_pos hv]
      rw [hstep]
      exact ⟨rfl, Finset.Subset.refl vv, hv, hinv⟩
    · have hinner : BlackInv st (insert v p) (insert v vv) := by
        intro u hu hup
        have hune : u ≠ v := fun h => hup (h ▸ Finset.mem_insert_self v p)
        have huv : u ∈ vv := (Finset.mem_insert.1 hu).resolve_left hune
        have hup2 : u ∉ p := fun h => hup (Finset.mem_insert_of_mem h)
        obtain ⟨hsupp, hcyc⟩ := hinv u huv hup2
        refine ⟨?_, hcyc⟩
        intro s hse
        obtain ⟨hs1, hs2⟩ := hsupp s hse
        refine ⟨Finset.mem_insert_of_mem hs1, ?_⟩
        intro hmem
        rcases Finset.mem_insert.1 hmem with rfl | h2
        · exact hv hs1
        · exact hs2 h2
      by_cases hrange : v < st.length
      · have hcard : (Finset.range st.length \ insert v vv).card + 1
            ≤ (Finset.range st.length \ vv).card := by
          have hvmem : v ∈ Finset.range st.length \ vv :=
            Finset.mem_sdiff.2 ⟨Finset.mem_range.2 hrange, hv⟩
          have herase : Finset.range st.length \ insert v vv
              = (Finset.range st.length \ vv).erase v := by
            ext x
            simp only [Finset.mem_sdiff, Finset.mem_erase, Finset.mem_insert,
              Finset.mem_range]
            tauto
          have hpos := Finset.card_pos.2 ⟨v, hvmem⟩
          rw [herase, Finset.card_erase_of_mem hvmem]
          omega
        have hf : ∀ s vv2, insert v vv ⊆ vv2 → s ∉ insert v p →
            BlackInv st (insert v p) vv2 →
            (cvisit st fuel s (insert v p) vv2).1 = none →
            ((cvisit st fuel s (insert v p) vv2).2.1 = insert v p
             ∧ vv2 ⊆ (cvisit st fuel s (insert v p) vv2).2.2
             ∧ s ∈ (cvisit st fuel s (insert v p) vv2).2.2
             ∧ BlackInv st (insert v p)
                 (cvisit st fuel s (insert v p) vv2).2.2) := by
          intro s vv2 hsub hsp hinv2 hn
          refine ih s (insert v p) vv2 ?_ hsp hinv2 hn
          have hmono : Finset.range st.length \ vv2
              ⊆ Finset.range st.length \ insert v vv :=
            Finset.sdiff_subset_sdiff (Finset.Subset.refl _) hsub
          have hle := Finset.card_le_card hmono
          omega
        rcases hres : cgo (fun s p2 vv2 => cvisit st fuel s p2 vv2)
            (suppliersOf st v) (insert v p) (insert v vv) with ⟨o, rp, rv⟩
        cases o with
        | some w0 =>
          rw [cvisit_eq_succ, if_neg hv, hres] at hnone
          cases hnone
        | none =>
          have hcgo := cgo_complete st (insert v p) (insert v vv)
              (fun s p2 vv2 => cvisit st fuel s p2 vv2) hf
              (suppliersOf st v) (insert v vv) (Finset.Subset.refl _) hinner
              (by rw [hres])
          rw [hres] at hcgo
          have hrp : rp = insert v p := hcgo.1
          have hsub2 : insert v vv ⊆ rv := hcgo.2.1
          have hsupps : ∀ s ∈ suppliersOf st v, s ∈ rv ∧ s ∉ insert v p :=
            hcgo.2.2.1
          have hinv3 : BlackInv st (insert v p) rv := hcgo.2.2.2
          have hstep : cvisit st (fuel + 1) v p vv = (none, rp.erase v, rv) := by
            rw [cvisit_eq_succ, if_neg hv, hres]
          rw [hstep]
          refine ⟨?_, ?_, ?_, ?_⟩
          · show rp.erase v = p
            rw [hrp]
            exact Finset.erase_insert hvp
          · exact fun x hx => hsub2 (Finset.mem_insert_of_mem hx)
          · exact hsub2 (Finset.mem_insert_self v vv)
          · intro u hu hup
            by_cases huv : u = v
            · subst huv
              refine ⟨?_, ?_⟩
              · intro s hse
                obtain ⟨h1, h2⟩ := hsupps s hse
                exact ⟨h1, fun hp2 => h2 (Finset.mem_insert_of_mem hp2)⟩
              · apply not_cycleFrom_of_suppliers
                intro s hse
                obtain ⟨h1, h2⟩ := hsupps s hse
                exact (hinv3 s h1 h2).2
            · have hup2 : u ∉ insert v p := by
                intro hmem
                rcases Finset.mem_insert.1 hmem with rfl | h2
                · exact huv rfl
                · exact hup h2
              obtain ⟨hsupp, hcyc⟩ := hinv3 u hu hup2
              refine ⟨?_, hcyc⟩
              intro s hse
              obtain ⟨h1, h2⟩ := hsupp s hse
              exact ⟨h1, fun hp2 => h2 (Finset.mem_insert_of_mem hp2)⟩
      · have hsupp : suppliersOf st v = [] := by
          rw [suppliersOf, wsAt_oor st v hrange]
          rfl
        have hstep : cvisit st (fuel + 1) v p vv = (none, p, insert v vv) := by
          rw [cvisit_eq_succ, if_neg hv, hsupp]
          show (none, (insert v p).erase v, insert v vv)
              = (none, p, insert v vv)
          rw [Finset.erase_insert hvp]
        rw [hstep]
        refine ⟨rfl, fun x hx => Finset.mem_insert_of_mem hx,
          Finset.mem_insert_self v vv, ?_⟩
        intro u hu hup
        rcases Finset.mem_insert.1 hu with rfl | huv
        · refine ⟨?_, ?_⟩
          · intro s hse
            rw [hsupp] at hse
            cases hse
          · apply not_cycleFrom_of_suppliers
            intro s hse
            rw [hsupp] at hse
            cases hse
        · obtain ⟨hs2, hc⟩ := hinv u huv hup
          exact ⟨fun s hse => ⟨Finset.mem_insert_of_mem (hs2 s hse).1,
            (hs2 s hse).2⟩, hc⟩

/-- Completeness of is_cyclic: a cycle reachable from the start vertex
is always reported, because a silent run would blacken the start while
keeping the invariant that no blackened vertex reaches a cycle. -/
theorem is_cyclic_complete (st : State) (start : Nat)
    (h : CycleFrom st start) : ∃ w, is_cyclic st start = some w := by
  rcases hc : is_cyclic st start with _ | w
  · exfalso
    unfold is_cyclic at hc
    have hfuel : (Finset.range st.length \ (∅ : Finset Nat)).card + 1
        ≤ st.length + 2 := by
      rw [Finset.sdiff_empty, Finset.card_range]
      omega
    have hinv : BlackInv st ∅ ∅ :=
      fun u hu _ => absurd hu (Finset.not_mem_empty u)
    have hres := cvisit_complete st (st.length + 2) start ∅ ∅ hfuel
      (Finset.not_mem_empty start) hinv hc
    exact (hres.2.2.2 start hres.2.2.1 (Finset.not_mem_empty start)).2 h
  · exact ⟨w, rfl⟩

/-- Unfolding equation of bgo on the empty list. -/
theorem bgo_eq_nil (st : State) (v : Nat)
    (f : Nat → Finset Nat → Option Nat × Finset Nat) (vv : Finset Nat) :
    bgo st v f [] vv = (none, vv) := rfl

/-- Unfolding equation of bgo on a nonempty list. -/
theorem bgo_eq_cons (st : State) (v : Nat)
    (f : Nat → Finset Nat → Option Nat × Finset Nat) (s : Nat)
    (rest : List Nat) (vv : Finset Nat) :
    bgo st v f (s :: rest) vv
      = if s ∈ vv then bgo st v f rest vv
        else if broken_link st v s then (some s, vv)
        else
          match f s vv with
          | (some _, v2) => (some s, v2)
          | (none, v2) => bgo st v f rest v2 := rfl

/-- Unfolding equation of bvisit with fuel left. -/
theorem bvisit_eq_succ (st : State) (fuel v : Nat) (vv : Finset Nat) :
    bvisit st (fuel + 1) v vv
      = bgo st v (fun s vv2 => bvisit st fuel s vv2) (suppliersOf st v)
          (insert v vv) := rfl

/-- broken_link holds exactly when the supplier does not list the
manager (an empty manager list included). -/
theorem broken_link_iff (st : State) (m s : Nat) :
    broken_link st m s = true ↔ m ∉ managersOf st s := by
  unfold broken_link managersOf
  by_cases he : (wsAt st s).managers.isEmpty = true
  · simp [he, List.isEmpty_iff.1 he]
  · rw [if_neg he]
    by_cases hc : (wsAt st s).managers.contains m = true
    · simp only [hc, Bool.not_true, Bool.false_eq_true, if_false]
      have hmem : m ∈ (wsAt st s).managers := by simpa using hc
      simp [hmem]
    · have hc2 : (wsAt st s).managers.contains m = false := by simp_all
      simp only [hc2, Bool.not_false, if_true]
      have hmem : m ∉ (wsAt st s).managers := by simpa using hc
      simp [hmem]

/-- Soundness of the is_broken loop body: a reported vertex is a listed
supplier and a one-sided edge exists. -/
theorem bgo_sound (st : State) (v : Nat)
    (f : Nat → Finset Nat → Option Nat × Finset Nat)
    (hf : ∀ s vv2 w, (f s vv2).1 = some w → OneSided st) :
    ∀ (l : List Nat) (vv : Finset Nat),
      (∀ s ∈ l, s ∈ suppliersOf st v) →
      ∀ w, (bgo st v f l vv).1 = some w →
        w ∈ suppliersOf st v ∧ OneSided st := by
  intro l
  induction l with
  | nil =>
    intro vv _ w hw
    rw [bgo_eq_nil] at hw
    cases hw
  | cons s rest ih =>
    intro vv hl w hw
    have hsm : s ∈ suppliersOf st v := hl s (List.mem_cons_self s rest)
    by_cases hv : s ∈ vv
    · rw [bgo_eq_cons, if_pos hv] at hw
      exact ih vv (fun q hq => hl q (List.mem_cons_of_mem s hq)) w hw
    · by_cases hb : broken_link st v s = true
      · rw [bgo_eq_cons, if_neg hv, if_pos hb] at hw
        cases hw
        exact ⟨hsm, v, s, hsm, (broken_link_iff st v s).1 hb⟩
      · rw [bgo_eq_cons, if_neg hv, if_neg hb] at hw
        rcases hres : f s vv with ⟨o, v2⟩
        rw [hres] at hw
        cases o with
        | some w0 =>
          cases hw
          exact ⟨hsm, hf s vv w0 (by rw [hres])⟩
        | none =>
          exact ih v2 (fun q hq => hl q (List.mem_cons_of_mem s hq)) w hw

/-- Soundness of the is_broken visit. -/
theorem bvisit_sound (st : State) : ∀ (fuel v : Nat) (vv : Finset Nat)
    (w : Nat), (bvisit st fuel v vv).1 = some w →
    w ∈ suppliersOf st v ∧ OneSided st := by
  intro fuel
  induction fuel with
  | zero =>
    intro v vv w hw
    cases hw
  | succ fuel ih =>
    intro v vv w hw
    rw [bvisit_eq_succ] at hw
    exact bgo_sound st v (fun s vv2 => bvisit st fuel s vv2)
      (fun s vv2 w2 hw2 => (ih s vv2 w2 hw2).2)
      (suppliersOf st v) (insert v vv) (fun q hq => hq) w hw

/-- On a link-consistent state the is_broken loop body stays silent. -/
theorem bgo_none_of_consistent (st : State) (v : Nat)
    (f : Nat → Finset Nat → Option Nat × Finset Nat)
    (hf : ∀ s vv2, (f s vv2).1 = none) :
    ∀ (l : List Nat) (vv : Finset Nat),
      (∀ s ∈ l, broken_link st v s = false) →
      (bgo st v f l vv).1 = none := by
  intro l
  induction l with
  | nil =>
    intro vv _
    rw [bgo_eq_nil]
  | cons s rest ih =>
    intro vv hb
    by_cases hv : s ∈ vv
    · rw [bgo_eq_cons, if_pos hv]
      exact ih vv (fun q hq => hb q (List.mem_cons_of_mem s hq))
    · have hbs : ¬ broken_link st v s = true := by
        rw [hb s (List.mem_cons_self s rest)]
        simp
      rw [bgo_eq_cons, if_neg hv, if_neg hbs]
      rcases hres : f s vv with ⟨o, v2⟩
      have ho := hf s vv
      rw [hres] at ho
      cases o with
      | some w0 => cases ho
      | none => exact ih v2 (fun q hq => hb q (List.mem_cons_of_mem s hq))

/-- On a link-consistent state the is_broken visit stays silent. -/
theorem bvisit_none_of_consistent (st : State) (hcons : LinkConsistent st) :
    ∀ (fuel v : Nat) (vv : Finset Nat), (bvisit st fuel v vv).1 = none := by
  intro fuel
  induction fuel with
  | zero =>
    intro v vv
    rfl
  | succ fuel ih =>
    intro v vv
    rw [bvisit_eq_succ]
    apply bgo_none_of_consistent st v _ (fun s vv2 => ih s vv2)
    intro s hs
    have hmem : v ∈ managersOf st s := hcons v s hs
    have : ¬ broken_link st v s = true := by
      rw [broken_link_iff]
      simp [hmem]
    simp_all

/-- C3 amended: on every link-consistent state without a supplier-edge
cycle, the validation pair reports no fault; whenever the cycle check
reports a vertex, the state does contain a cycle and the reported vertex
is a direct supplier of the start vertex, which need not be the vertex
revisited on the recursion path (the find propagates upward as the loop
supplier of each ancestor); and on every state with a cycle reachable
from the start vertex the check does report some vertex. -/
theorem cycle_check_characterisation :
    (∀ st start, LinkConsistent st → ¬ HasCycle st →
      is_cyclic st start = none ∧ is_broken st start = none)
    ∧ (∀ st start w, is_cyclic st start = some w →
        w ∈ suppliersOf st start ∧ HasCycle st)
    ∧ ∀ st start, CycleFrom st start → ∃ w, is_cyclic st start = some w := by
  refine ⟨?_, is_cyclic_sound, is_cyclic_complete⟩
  intro st start hcons hacyc
  constructor
  · rcases hc : is_cyclic st start with _ | w
    · rfl
    · exact absurd (is_cyclic_sound st start w hc).2 hacyc
  · exact bvisit_none_of_consistent st hcons (st.length + 2) start ∅

/-- No station of the edgeless state has suppliers. -/
theorem acyclicSt_no_suppliers (v : Nat) : suppliersOf acyclicSt v = [] := by
  match v with
  | 0 => rfl
  | v + 1 =>
    rw [suppliersOf, wsAt_oor acyclicSt (v + 1) (by exact (by omega : ¬ v + 1 < 1))]
    rfl

/-- The edgeless state is link-consistent. -/
theorem acyclicSt_consistent : LinkConsistent acyclicSt := by
  intro v s h
  rw [acyclicSt_no_suppliers v] at h
  cases h

/-- The edgeless state has no cycle. -/
theorem acyclicSt_acyclic : ¬ HasCycle acyclicSt := by
  rintro ⟨u, t, ht, _⟩
  rw [acyclicSt_no_suppliers u] at ht
  cases ht

/-- Witness for the C3 theorem: the no-fault part at the edgeless state,
the soundness and detection parts at the two-station cycle. -/
theorem cycle_check_characterisation_witness :
    (is_cyclic acyclicSt 0 = none ∧ is_broken acyclicSt 0 = none)
    ∧ (1 ∈ suppliersOf cyclicSt 0 ∧ HasCycle cyclicSt)
    ∧ ∃ w, is_cyclic cyclicSt 0 = some w :=
  ⟨cycle_check_characterisation.1 acyclicSt 0 acyclicSt_consistent
      acyclicSt_acyclic,
    cycle_check_characterisation.2.1 cyclicSt 0 1 rfl,
    cycle_check_characterisation.2.2 cyclicSt 0
      ⟨0, 1, Reaches.refl 0, by decide,
        Reaches.step (show (0 : Nat) ∈ suppliersOf cyclicSt 1 by decide)
          (Reaches.refl 0)⟩⟩

/-- C3 counterexample: on the two-station cycle walked from 0, the
vertex revisited while on the recursion path is 0 (the walk stacks 0
then 1 and finds the back edge from 1 to 0), yet the check reports 1:
the reported vertex is not the one that closes the cycle. -/
theorem is_cyclic_not_closing_node :
    is_cyclic cyclicSt 0 = some 1
    ∧ 0 ∈ suppliersOf cyclicSt 1
    ∧ is_cyclic cyclicSt 0 ≠ some 0 := by
  refine ⟨rfl, by decide, by decide⟩

/-- C4 amended: whenever the broken-link check reports a vertex, a
one-sided supplier edge exists and the reported vertex is a direct
supplier of the start vertex — it equals the offending supplier only
when the one-sided edge leaves the start vertex itself, because an inner
find propagates upward as the loop supplier of each ancestor; on every
link-consistent state the check reports no fault. -/
theorem broken_check_characterisation :
    (∀ st start, LinkConsistent st → is_broken st start = none)
    ∧ ∀ st start w, is_broken st start = some w →
        w ∈ suppliersOf st start ∧ OneSided st := by
  constructor
  · intro st start hcons
    exact bvisit_none_of_consistent st hcons (st.length + 2) start ∅
  · intro st start w h
    exact bvisit_sound st (st.length + 2) start ∅ w h

/-- Witness for the C4 theorem: silence at the edgeless state and
soundness at the one-sided chain. -/
theorem broken_check_characterisation_witness :
    is_broken acyclicSt 0 = none
    ∧ (1 ∈ suppliersOf brokenSt 0 ∧ OneSided brokenSt) :=
  ⟨broken_check_characterisation.1 acyclicSt 0 acyclicSt_consistent,
    broken_check_characterisation.2 brokenSt 0 1 rfl⟩

/-- C4 counterexample: in the chain 0 to 1 to 2 the only one-sided edge
is the one from 1 to its supplier 2 (station 2 lists no managers), and
the edge from 0 to 1 is consistent, yet the check reports 1, not the
offending supplier 2. -/
theorem is_broken_not_offender :
    is_broken brokenSt 0 = some 1
    ∧ 2 ∈ suppliersOf brokenSt 1
    ∧ 1 ∉ managersOf brokenSt 2
    ∧ 0 ∈ managersOf brokenSt 1
    ∧ is_broken brokenSt 0 ≠ some 2 := by
  refine ⟨rfl, by decide, by decide, by decide, by decide⟩

end GraphClaims

end Elara
